import Mathlib

/-!
Verification of the storage Market and Miner actors (specs-actors).

Shallow embedding of `actors/builtin/miner/miner_state.go`,
`actors/builtin/miner/policy.go` and `actors/builtin/market/market_actor.go`.
Machine integers are modelled as `Int`/`Nat`; Go's truncated `%` on native
integers is `Int.tmod`, and `math/big`'s Euclidean `Div` is `Int.ediv`.
Content-addressed AMT arrays keyed by uint64 are modelled as association
lists sorted by key (matching the AMT's key-ascending iteration order), and
bitfields as `Finset Nat`.  Components of the repository that are not part
of the provided sources (the market's state helpers and balance tables, and
the runtime's transaction semantics) are modelled from the specification and
are marked `Modelled from the spec:` in their doc comments.
-/

/-- ChainEpoch sentinel: the undefined epoch used for DealState fields. -/
def epochUndefined : Int := -1

/-- Exit codes of the runtime (the closed enumeration from the spec). -/
inductive ExitCode where
  | Ok
  | ErrIllegalArgument
  | ErrIllegalState
  | ErrNotFound
  | ErrForbidden
  | ErrInsufficientFunds
  | SysErrForbidden
  | SysErrIllegalArgument
deriving DecidableEq, Repr

/-- EpochKey converts a chain epoch to the uint64 key used by AMT arrays:
`uint64(e)` reinterprets the two's-complement int64 value. -/
def EpochKey (e : Int) : Nat := (e % (2 : Int) ^ 64).toNat

/-- Reinterpretation of a uint64 AMT key as an int64, as Go's `ForEach`
callback receives it. -/
def keyToInt64 (k : Nat) : Int := if k < 2 ^ 63 then (k : Int) else (k : Int) - 2 ^ 64

/-- Sorted association-list insert/replace, modelling `Array.Set` on an AMT. -/
def insertKV {α : Type} (k : Nat) (v : α) : List (Nat × α) → List (Nat × α)
  | [] => [(k, v)]
  | (k', v') :: rest =>
    if k < k' then (k, v) :: (k', v') :: rest
    else if k = k' then (k, v) :: rest
    else (k', v') :: insertKV k v rest

/-- Sorted association-list lookup, modelling `Array.Get` on an AMT
(searching in key order and stopping once the key is passed). -/
def lookupKV {α : Type} (k : Nat) : List (Nat × α) → Option α
  | [] => none
  | (k', v') :: rest =>
    if k < k' then none
    else if k = k' then some v'
    else lookupKV k rest

/-- Sum of the values of an Int-valued AMT. -/
def valSum : List (Nat × Int) → Int
  | [] => 0
  | kv :: rest => kv.2 + valSum rest

/-- Union of the bitfield values of a bitfield-valued AMT. -/
def unionVals : List (Nat × Finset Nat) → Finset Nat
  | [] => ∅
  | kv :: rest => kv.2 ∪ unionVals rest

/-! ## Miner policy (`actors/builtin/miner/policy.go`) -/

/-- The maximum number of sectors that a miner can have simultaneously active. -/
def SectorsMax : Nat := 32 <<< 20

/-- Specification for a linear vesting schedule. -/
structure VestSpec where
  InitialDelay : Int
  VestPeriod : Int
  StepDuration : Int
  Quantization : Int
deriving DecidableEq, Repr

/-- BigFrac numerator/denominator pair from policy.go. -/
structure BigFrac where
  numerator : Int
  denominator : Int

def consensusFaultReporterInitialShare : BigFrac := ⟨1, 1000⟩

def consensusFaultReporterShareGrowthRate : BigFrac := ⟨101251, 100000⟩

/-- rewardForConsensusSlashReport from policy.go.  `big.Exp` is exponentiation
by a non-negative exponent (`toNat` of a negative elapsed epoch is 0, matching
`big.Exp`'s result of 1 for non-positive exponents), and `big.Div` is Euclidean
division (`Int.ediv`). -/
def rewardForConsensusSlashReport (elapsedEpoch : Int) (collateral : Int) : Int :=
  let maxReporterShareNum : Int := 1
  let maxReporterShareDen : Int := 2
  let slasherShareNumerator := consensusFaultReporterShareGrowthRate.numerator ^ elapsedEpoch.toNat
  let slasherShareDenominator := consensusFaultReporterShareGrowthRate.denominator ^ elapsedEpoch.toNat
  let num := slasherShareNumerator * consensusFaultReporterInitialShare.numerator * collateral
  let denom := slasherShareDenominator * consensusFaultReporterInitialShare.denominator
  min (num / denom) (collateral * maxReporterShareNum / maxReporterShareDen)

/-! ## Miner state (`actors/builtin/miner/miner_state.go`) -/

/-- Funds- and fault-related fields of the miner actor state.  The remaining
fields of the Go `State` (info, sectors, deadlines, …) are not read or written
by the operations embedded here. -/
structure MinerState where
  PreCommitDeposits : Int
  LockedFunds : Int
  VestingFunds : List (Nat × Int)
  Faults : Finset Nat
  FaultEpochs : List (Nat × Finset Nat)
deriving DecidableEq

/-- Rounds e to the nearest exact multiple of the quantization unit, rounding
up.  Go's native `%` on int64 is truncated division remainder (`Int.tmod`). -/
def quantizeUp (e : Int) (unit : Int) : Int :=
  if e.tmod unit = 0 then e
  else e - e.tmod unit + unit

/-- Rounds e to the nearest exact multiple of the quantization unit, rounding
down. -/
def quantizeDown (e : Int) (unit : Int) : Int :=
  if e.tmod unit = 0 then e
  else e - e.tmod unit

/-- Cumulative vesting target of one loop iteration of `AddLockedFunds`:
`vestingSum · elapsed / VestPeriod` while the quantized elapsed time is below
the vest period (with `big.Div`, Euclidean division), and `vestingSum` from
then on. -/
def vestTarget (vestingSum : Int) (spec : VestSpec) (vestBegin e : Int) : Int :=
  if quantizeUp e spec.Quantization - vestBegin < spec.VestPeriod then
    vestingSum * (quantizeUp e spec.Quantization - vestBegin) / spec.VestPeriod
  else vestingSum

/-- Table update of one vesting-loop iteration: read the existing entry for
the quantized vest epoch (default 0) and write back its sum with the vested
increment. -/
def vestTableAdd (table : List (Nat × Int)) (vestEpoch : Int) (vestThisTime : Int) :
    List (Nat × Int) :=
  insertKV (EpochKey vestEpoch) ((lookupKV (EpochKey vestEpoch) table).getD 0 + vestThisTime)
    table

/-- The vesting loop of `AddLockedFunds`: steps `e` by `StepDuration` while
the cumulative vested amount is below `vestingSum`, adding each increment to
the vesting-funds table at the quantized vest epoch.  The Go loop has no
fuel; `fuel` bounds the number of iterations and `none` means the bound was
hit before the loop exited, so every terminating run of the Go loop is a
`some` run for sufficiently large fuel. -/
def AddLockedFundsLoop (vestingSum : Int) (spec : VestSpec) (vestBegin : Int) :
    Nat → Int → Int → List (Nat × Int) → Option (List (Nat × Int))
  | 0, _, vestedSoFar, table =>
    if vestedSoFar < vestingSum then none else some table
  | fuel + 1, e, vestedSoFar, table =>
    if vestedSoFar < vestingSum then
      AddLockedFundsLoop vestingSum spec vestBegin fuel (e + spec.StepDuration)
        (vestTarget vestingSum spec vestBegin e)
        (vestTableAdd table (quantizeUp e spec.Quantization)
          (vestTarget vestingSum spec vestBegin e - vestedSoFar))
    else some table

/-- AddLockedFunds from miner_state.go.  The leading `vestingSum < 0` guard is
the Go `AssertMsg`; assertion failure aborts, modelled as `none`. -/
def AddLockedFunds (st : MinerState) (fuel : Nat) (currEpoch : Int)
    (vestingSum : Int) (spec : VestSpec) : Option MinerState :=
  if vestingSum < 0 then none
  else
    match AddLockedFundsLoop vestingSum spec (currEpoch + spec.InitialDelay) fuel
        (currEpoch + spec.InitialDelay + spec.StepDuration) 0 st.VestingFunds with
    | none => none
    | some table =>
      some { st with VestingFunds := table, LockedFunds := st.LockedFunds + vestingSum }

/-- Iteration body of `UnlockVestedFunds`: in key order, entries with
`k < currEpoch` are summed and deleted; the first entry at or past `currEpoch`
stops the iteration (the Go code collects `toDelete` and applies `deleteMany`
afterwards, which removes exactly this prefix). -/
def UnlockVestedLoop (currEpoch : Int) : List (Nat × Int) → Int × List (Nat × Int)
  | [] => (0, [])
  | (k, v) :: rest =>
    if keyToInt64 k < currEpoch then
      let r := UnlockVestedLoop currEpoch rest
      (v + r.1, r.2)
    else (0, (k, v) :: rest)

/-- UnlockVestedFunds from miner_state.go.  The trailing `Assert` that
LockedFunds stays non-negative is modelled as the `none` case. -/
def UnlockVestedFunds (st : MinerState) (currEpoch : Int) : Option (Int × MinerState) :=
  if 0 ≤ st.LockedFunds - (UnlockVestedLoop currEpoch st.VestingFunds).1 then
    some ((UnlockVestedLoop currEpoch st.VestingFunds).1,
      { st with VestingFunds := (UnlockVestedLoop currEpoch st.VestingFunds).2,
                LockedFunds := st.LockedFunds - (UnlockVestedLoop currEpoch st.VestingFunds).1 })
  else none

/-- Iteration body of `UnlockUnvestedFunds`: entries at or past `currEpoch`
are drained (and deleted when zeroed) until `target` is reached; iteration
stops once the unlocked amount reaches `target`. -/
def UnlockUnvestedLoop (currEpoch target : Int) :
    List (Nat × Int) → Int → Int × List (Nat × Int)
  | [], amountUnlocked => (amountUnlocked, [])
  | (k, v) :: rest, amountUnlocked =>
    if amountUnlocked < target then
      if currEpoch ≤ keyToInt64 k then
        let unlockAmount := min (target - amountUnlocked) v
        let lockedEntry := v - unlockAmount
        let r := UnlockUnvestedLoop currEpoch target rest (amountUnlocked + unlockAmount)
        (r.1, if lockedEntry = 0 then r.2 else (k, lockedEntry) :: r.2)
      else
        let r := UnlockUnvestedLoop currEpoch target rest amountUnlocked
        (r.1, (k, v) :: r.2)
    else (amountUnlocked, (k, v) :: rest)

/-- UnlockUnvestedFunds from miner_state.go, with the trailing non-negativity
`Assert` modelled as the `none` case. -/
def UnlockUnvestedFunds (st : MinerState) (currEpoch target : Int) :
    Option (Int × MinerState) :=
  if 0 ≤ st.LockedFunds - (UnlockUnvestedLoop currEpoch target st.VestingFunds 0).1 then
    some ((UnlockUnvestedLoop currEpoch target st.VestingFunds 0).1,
      { st with VestingFunds := (UnlockUnvestedLoop currEpoch target st.VestingFunds 0).2,
                LockedFunds := st.LockedFunds -
                  (UnlockUnvestedLoop currEpoch target st.VestingFunds 0).1 })
  else none

/-- AddFaults from miner_state.go: merges the sector numbers into `Faults`
(failing when the count would exceed `SectorsMax`) and into the
`FaultEpochs` entry for `faultEpoch`. -/
def AddFaults (st : MinerState) (sectorNos : Finset Nat) (faultEpoch : Int) :
    Option MinerState :=
  if sectorNos = ∅ then some st
  else if SectorsMax < (st.Faults ∪ sectorNos).card then none
  else
    some { st with Faults := st.Faults ∪ sectorNos,
                   FaultEpochs := insertKV (EpochKey faultEpoch)
                     ((lookupKV (EpochKey faultEpoch) st.FaultEpochs).getD ∅ ∪ sectorNos)
                     st.FaultEpochs }

/-- RemoveFaults from miner_state.go: subtracts the sector numbers from
`Faults` and writes back every `FaultEpochs` entry whose count changed
under the subtraction (entries with unchanged count are left as they were). -/
def RemoveFaults (st : MinerState) (sectorNos : Finset Nat) : MinerState :=
  if sectorNos = ∅ then st
  else
    { st with Faults := st.Faults \ sectorNos,
              FaultEpochs := st.FaultEpochs.map (fun kv =>
                if (kv.2 \ sectorNos).card ≠ kv.2.card then (kv.1, kv.2 \ sectorNos)
                else kv) }

/-- Miner state invariant: the vesting-funds table sums to `LockedFunds`. -/
def VestSumInvariant (st : MinerState) : Prop :=
  valSum st.VestingFunds = st.LockedFunds

/-- Miner state invariant: `Faults` equals the union of the `FaultEpochs`
values. -/
def FaultsInvariant (st : MinerState) : Prop :=
  st.Faults = unionVals st.FaultEpochs

/-! ## Market actor (`actors/builtin/market/market_actor.go`)

The market actor's helper state file (`state.go`: deal proposal/state types,
balance tables, the deferred deal-state update and deal deletion) is not part
of the provided sources; those definitions are modelled from the
specification (§3.1, §4.1, §4.2.3) and carry `Modelled from the spec:`
doc comments.  The methods of `market_actor.go` itself are embedded from the
source. -/

/-- DealProposal (immutable once published), from the spec's data model
(§3.1); the piece cid is opaque and modelled as a `Nat`. -/
structure DealProposal where
  PieceCID : Nat
  PieceSize : Nat
  VerifiedDeal : Bool
  Client : Nat
  Provider : Nat
  StartEpoch : Int
  EndEpoch : Int
  StoragePricePerEpoch : Int
  ProviderCollateral : Int
  ClientCollateral : Int
deriving DecidableEq, Repr

/-- Deal duration in epochs. -/
def DealProposal.Duration (p : DealProposal) : Int := p.EndEpoch - p.StartEpoch

/-- Total storage fee: price per epoch times duration. -/
def DealProposal.TotalStorageFee (p : DealProposal) : Int :=
  p.StoragePricePerEpoch * p.Duration

/-- Modelled from the spec: `ClientBalanceRequirement = ClientCollateral +
price·duration` (§4.2 PublishStorageDeals step 4). -/
def DealProposal.ClientBalanceRequirement (p : DealProposal) : Int :=
  p.ClientCollateral + p.TotalStorageFee

/-- Modelled from the spec: the provider must lock its collateral. -/
def DealProposal.ProviderBalanceRequirement (p : DealProposal) : Int :=
  p.ProviderCollateral

/-- DealState (mutable), with `-1` (`epochUndefined`) sentinels. -/
structure DealState where
  SectorStartEpoch : Int
  LastUpdatedEpoch : Int
  SlashEpoch : Int
deriving DecidableEq, Repr

/-- Market actor state (§3.1).  Balance tables are total maps with default
balance 0; `DealIDsByParty` maps each address to its (key-ascending) set of
deal ids. -/
structure MarketState where
  EscrowTable : Nat → Int
  LockedTable : Nat → Int
  Proposals : Nat → Option DealProposal
  States : Nat → Option DealState
  DealIDsByParty : Nat → List Nat
  NextID : Nat

/-- Runtime environment of a market invocation: address resolution, actor
code inspection, miner control addresses, caller-type checks, the signature
syscall behind `dealProposalIsInternallyValid`, the policy bound functions of
the market's policy module (not in the provided sources), and the outcome of
`VerifiedRegistry.UseBytes` sends. -/
structure MarketEnv where
  resolve : Nat → Option Nat
  isMiner : Nat → Bool
  minerOwner : Nat → Nat
  minerWorker : Nat → Nat
  isSignable : Nat → Bool
  dealValid : DealProposal → Bool
  durationBounds : Nat → Int × Int
  priceBounds : Nat → Int → Int × Int
  providerCollateralBounds : Nat → Int → Int × Int
  clientCollateralBounds : Nat → Int → Int × Int
  useBytesOk : Nat → Nat → Bool

/-- Address of the burnt-funds sink actor. -/
def BurntFundsActorAddr : Nat := 99

/-- Modelled from the spec: a `States` lookup yields the sentinel state
`(-1, -1, -1)` when no entry is present (§3.1 DealState). -/
def getDealState (st : MarketState) (dealID : Nat) : DealState :=
  (st.States dealID).getD ⟨epochUndefined, epochUndefined, epochUndefined⟩

/-- Modelled from the spec: credit an amount to a party's escrow balance. -/
def addEscrowBalance (st : MarketState) (a : Nat) (amount : Int) : MarketState :=
  { st with EscrowTable := Function.update st.EscrowTable a (st.EscrowTable a + amount) }

/-- Modelled from the spec: credit an amount to a party's locked balance
(used with 0 to ensure the row exists). -/
def addLockedBalance (st : MarketState) (a : Nat) (amount : Int) : MarketState :=
  { st with LockedTable := Function.update st.LockedTable a (st.LockedTable a + amount) }

/-- Modelled from the spec: release an amount from a party's locked balance. -/
def unlockBalance (st : MarketState) (a : Nat) (amount : Int) : MarketState :=
  { st with LockedTable := Function.update st.LockedTable a (st.LockedTable a - amount) }

/-- Modelled from the spec: move a payment from the client's locked escrow to
the provider's (unlocked) escrow. -/
def transferBalance (st : MarketState) (fromA toA : Nat) (amount : Int) : MarketState :=
  let st1 := { st with
    EscrowTable := Function.update st.EscrowTable fromA (st.EscrowTable fromA - amount),
    LockedTable := Function.update st.LockedTable fromA (st.LockedTable fromA - amount) }
  { st1 with EscrowTable := Function.update st1.EscrowTable toA (st1.EscrowTable toA + amount) }

/-- Modelled from the spec: remove an amount from a party's escrow and locked
balances (the removed escrow is burned by the caller). -/
def slashBalance (st : MarketState) (a : Nat) (amount : Int) : MarketState :=
  { st with
    EscrowTable := Function.update st.EscrowTable a (st.EscrowTable a - amount),
    LockedTable := Function.update st.LockedTable a (st.LockedTable a - amount) }

/-- Modelled from the spec: lock an amount of a party's escrow, aborting with
`ErrInsufficientFunds` when it would exceed the available (unlocked) escrow. -/
def lockBalanceOrAbort (st : MarketState) (a : Nat) (amount : Int) :
    Except ExitCode MarketState :=
  if amount < 0 then .error .ErrIllegalState
  else if st.EscrowTable a - st.LockedTable a < amount then .error .ErrInsufficientFunds
  else .ok { st with LockedTable := Function.update st.LockedTable a (st.LockedTable a + amount) }

/-- Removal of a deal id from a party's deal-id set. -/
def removeID (l : List Nat) (dealID : Nat) : List Nat := l.filter (· ≠ dealID)

/-- Sorted insertion of a deal id into a party's deal-id set
(`SetMultimap.Put`). -/
def insertID (dealID : Nat) : List Nat → List Nat
  | [] => [dealID]
  | x :: rest =>
    if dealID < x then dealID :: x :: rest
    else if dealID = x then x :: rest
    else x :: insertID dealID rest

/-- Modelled from the spec: delete the deal from `Proposals`, `States`, and
both entries of `DealIDsByParty` (§4.2.3 step 1). -/
def deleteDeal (st : MarketState) (dealID : Nat) (d : DealProposal) : MarketState :=
  let dbp1 := Function.update st.DealIDsByParty d.Client
      (removeID (st.DealIDsByParty d.Client) dealID)
  let dbp2 := Function.update dbp1 d.Provider (removeID (dbp1 d.Provider) dealID)
  { st with Proposals := Function.update st.Proposals dealID none,
            States := Function.update st.States dealID none,
            DealIDsByParty := dbp2 }

/-- Modelled from the spec: init timeout of a never-activated deal — unlock
the client's balance requirement, slash the provider collateral (removing it
from escrow and locked), delete the deal, and return the slashed amount
(§4.2.3 step 1). -/
def processDealInitTimedOut (st : MarketState) (dealID : Nat) (d : DealProposal) :
    Int × MarketState :=
  let st1 := unlockBalance st d.Client d.ClientBalanceRequirement
  let st2 := slashBalance st1 d.Provider d.ProviderCollateral
  (d.ProviderCollateral, deleteDeal st2 dealID d)

/-- Modelled from the spec: the epoch from which payment is owed —
`max(SectorStartEpoch, LastUpdatedEpoch if set else SectorStartEpoch)`
(§4.2.3 step 2). -/
def dealElapsedStart (s : DealState) : Int :=
  if s.LastUpdatedEpoch ≠ epochUndefined then max s.SectorStartEpoch s.LastUpdatedEpoch
  else s.SectorStartEpoch

/-- Modelled from the spec: a terminated deal — pay the storage price for
epochs `[elapsedStart, SlashEpoch)` from the client to the provider, refund
(unlock) the client collateral, slash the provider collateral, delete the
deal, and return the slashed amount (§4.2.3 step 2). -/
def processDealSlashed (st : MarketState) (dealID : Nat) (d : DealProposal)
    (s : DealState) : Int × MarketState :=
  (d.ProviderCollateral,
    deleteDeal
      (slashBalance
        (unlockBalance
          (transferBalance st d.Client d.Provider
            (d.StoragePricePerEpoch * (s.SlashEpoch - dealElapsedStart s)))
          d.Client d.ClientCollateral)
        d.Provider d.ProviderCollateral)
      dealID d)

/-- Modelled from the spec: an ongoing activated deal — transfer the price for
`[elapsedStart, min(now, EndEpoch))` from client-locked to provider-unlocked
and set `LastUpdatedEpoch = now` (§4.2.3 step 2). -/
def processDealPayment (st : MarketState) (dealID : Nat) (d : DealProposal)
    (s : DealState) (now : Int) : MarketState :=
  { transferBalance st d.Client d.Provider
      (d.StoragePricePerEpoch * (min now d.EndEpoch - dealElapsedStart s)) with
    States := Function.update
      (transferBalance st d.Client d.Provider
        (d.StoragePricePerEpoch * (min now d.EndEpoch - dealElapsedStart s))).States
      dealID (some { s with LastUpdatedEpoch := now }) }

/-- Modelled from the spec: normal expiry — after the final payment, refund
(unlock) both collaterals and delete the deal (§4.2.3 step 2). -/
def processDealExpired (st : MarketState) (dealID : Nat) (d : DealProposal)
    (s : DealState) (now : Int) : MarketState :=
  deleteDeal
    (unlockBalance
      (unlockBalance (processDealPayment st dealID d s now) d.Client d.ClientCollateral)
      d.Provider d.ProviderCollateral)
    dealID d

/-- Modelled from the spec: the deferred deal-state update for one deal at the
target epoch `now` (§4.2.3), returning the slashed amount.  The deal must
exist (`mustGetDeal` aborts otherwise). -/
def updatePendingDealState (now : Int) (dealID : Nat) (st : MarketState) :
    Except ExitCode (Int × MarketState) :=
  match st.Proposals dealID with
  | none => .error .ErrIllegalState
  | some d =>
    if (getDealState st dealID).SectorStartEpoch < 0 then
      if now > d.StartEpoch then .ok (processDealInitTimedOut st dealID d)
      else .ok (0, st)
    else
      if 0 ≤ (getDealState st dealID).SlashEpoch then
        .ok (processDealSlashed st dealID d (getDealState st dealID))
      else
        if min now d.EndEpoch = d.EndEpoch then
          .ok (0, processDealExpired st dealID d (getDealState st dealID) now)
        else .ok (0, processDealPayment st dealID d (getDealState st dealID) now)

/-- Modelled from the spec: the deferred update over a list of deal ids,
summing the slashed amounts. -/
def updatePendingDealStates (now : Int) : List Nat → MarketState →
    Except ExitCode (Int × MarketState)
  | [], st => .ok (0, st)
  | dealID :: rest, st =>
    match updatePendingDealState now dealID st with
    | .error e => .error e
    | .ok (a, st1) =>
      match updatePendingDealStates now rest st1 with
      | .error e => .error e
      | .ok (b, st2) => .ok (a + b, st2)

/-- Modelled from the spec: the per-party deferred update iterates a stable
snapshot of `DealIDsByParty[addr]` (§4.2.3). -/
def updatePendingDealStatesForParty (now : Int) (a : Nat) (st : MarketState) :
    Except ExitCode (Int × MarketState) :=
  updatePendingDealStates now (st.DealIDsByParty a) st

/-- Modelled from the spec: `BalanceTable.SubtractWithMinimum(addr, requested,
floor)` extracts `min(Balance[addr] − floor, requested)` clamped at 0, failing
if `floor < 0` or `Balance[addr] < floor` (§4.1); returns the extracted
amount. -/
def subtractWithMinimum (balance floor requested : Int) : Option Int :=
  if floor < 0 then none
  else if balance < floor then none
  else some (max (min (balance - floor) requested) 0)

/-- escrowAddress from market_actor.go: resolve the address, dispatch on the
actor code (miner entries are controlled by owner/worker and pay out to the
owner; other entries must be signable and pay out to themselves).  Failed
caller validation exits with the system forbidden code. -/
def escrowAddress (env : MarketEnv) (caller a : Nat) : Except ExitCode (Nat × Nat) :=
  match env.resolve a with
  | none => .error .ErrIllegalArgument
  | some nominal =>
    if env.isMiner nominal then
      if caller = env.minerOwner nominal ∨ caller = env.minerWorker nominal then
        .ok (nominal, env.minerOwner nominal)
      else .error .SysErrForbidden
    else
      if env.isSignable caller then .ok (nominal, nominal)
      else .error .SysErrForbidden

/-- AddBalance from market_actor.go: resolve the escrow address, credit the
received message value to escrow, and ensure a locked-table row exists. -/
def AddBalance (env : MarketEnv) (caller a : Nat) (msgValue : Int) (st : MarketState) :
    Except ExitCode MarketState :=
  match escrowAddress env caller a with
  | .error e => .error e
  | .ok (nominal, _) =>
    .ok (addLockedBalance (addEscrowBalance st nominal msgValue) nominal 0)

/-- WithdrawBalance from market_actor.go: reject negative amounts, resolve the
escrow address, run the party's deferred update, extract from escrow above the
locked floor, then send the burn (when positive) and the extracted amount.
Returns the new state with the list of (recipient, amount) sends. -/
def WithdrawBalance (env : MarketEnv) (caller : Nat) (now : Int) (a : Nat)
    (amount : Int) (st : MarketState) :
    Except ExitCode (MarketState × List (Nat × Int)) :=
  if amount < 0 then .error .ErrIllegalArgument
  else
    match escrowAddress env caller a with
    | .error e => .error e
    | .ok (nominal, recipient) =>
      match updatePendingDealStatesForParty now nominal st with
      | .error e => .error e
      | .ok (amountSlashedTotal, st1) =>
        let minBalance := st1.LockedTable nominal
        match subtractWithMinimum (st1.EscrowTable nominal) minBalance amount with
        | none => .error .ErrIllegalState
        | some ex =>
          let st2 := { st1 with
            EscrowTable := Function.update st1.EscrowTable nominal
              (st1.EscrowTable nominal - ex) }
          .ok (st2, (if 0 < amountSlashedTotal then [(BurntFundsActorAddr, amountSlashedTotal)]
                     else []) ++ [(recipient, ex)])

/-- validateDealCanActivate from market_actor.go: the four checks, in source
order, each aborting with `ErrIllegalArgument`. -/
def validateDealCanActivate (minerAddr : Nat) (sectorExpiration now : Int)
    (deal : DealState) (proposal : DealProposal) : Except ExitCode Unit :=
  if proposal.Provider ≠ minerAddr then .error .ErrIllegalArgument
  else if deal.SectorStartEpoch ≠ epochUndefined then .error .ErrIllegalArgument
  else if now > proposal.StartEpoch then .error .ErrIllegalArgument
  else if proposal.EndEpoch > sectorExpiration then .error .ErrIllegalArgument
  else .ok ()

/-- State write of one VerifyDealsOnSectorProveCommit iteration: store the
deal's state with `SectorStartEpoch` set to the current epoch. -/
def activateDeal (st : MarketState) (dealID : Nat) (now : Int) : MarketState :=
  { st with
    States := Function.update st.States dealID
      (some { getDealState st dealID with SectorStartEpoch := now }) }

/-- Loop body of VerifyDealsOnSectorProveCommit: per deal, fetch state and
proposal, validate activation, set `SectorStartEpoch`, and accumulate the
(verified) deal space-time. -/
def VerifyDealsLoop (minerAddr : Nat) (now sectorExpiry : Int) :
    List Nat → MarketState → Int → Int → Except ExitCode (MarketState × Int × Int)
  | [], st, totalDealSpaceTime, totalVerifiedDealSpaceTime =>
    .ok (st, totalDealSpaceTime, totalVerifiedDealSpaceTime)
  | dealID :: rest, st, totalDealSpaceTime, totalVerifiedDealSpaceTime =>
    match st.Proposals dealID with
    | none => .error .ErrIllegalState
    | some proposal =>
      match validateDealCanActivate minerAddr sectorExpiry now
          (getDealState st dealID) proposal with
      | .error e => .error e
      | .ok _ =>
        if proposal.VerifiedDeal then
          VerifyDealsLoop minerAddr now sectorExpiry rest (activateDeal st dealID now)
            totalDealSpaceTime
            (totalVerifiedDealSpaceTime + proposal.Duration * (proposal.PieceSize : Int))
        else
          VerifyDealsLoop minerAddr now sectorExpiry rest (activateDeal st dealID now)
            (totalDealSpaceTime + proposal.Duration * (proposal.PieceSize : Int))
            totalVerifiedDealSpaceTime

/-- VerifyDealsOnSectorProveCommit from market_actor.go (the caller-type
validation is environmental; `minerAddr` is the already-validated miner
caller).  Returns the updated state with the (DealWeight,
VerifiedDealWeight) pair. -/
def VerifyDealsOnSectorProveCommit (minerAddr : Nat) (now sectorExpiry : Int)
    (dealIDs : List Nat) (st : MarketState) :
    Except ExitCode (MarketState × Int × Int) :=
  VerifyDealsLoop minerAddr now sectorExpiry dealIDs st 0 0

/-- Deal weight of a list of deal ids read off a market state: the sum of
`pieceSize · (endEpoch − startEpoch)` over the deals whose verified flag
matches `verified` (ids with no proposal contribute 0). -/
def weightSum (st : MarketState) (verified : Bool) : List Nat → Int
  | [] => 0
  | dealID :: rest =>
    (match st.Proposals dealID with
     | some p => if p.VerifiedDeal = verified then p.Duration * (p.PieceSize : Int) else 0
     | none => 0) + weightSum st verified rest

/-- validateDeal from market_actor.go: internal validity/signature via the
environment, start not elapsed, and duration/price/collateral bounds from the
market policy (bounds functions are environment parameters since the market
policy file is not among the provided sources). -/
def validateDeal (env : MarketEnv) (now : Int) (deal : DealProposal) :
    Except ExitCode Unit :=
  if ¬ env.dealValid deal then .error .ErrIllegalArgument
  else if now > deal.StartEpoch then .error .ErrIllegalArgument
  else
    let db := env.durationBounds deal.PieceSize
    if deal.Duration < db.1 ∨ deal.Duration > db.2 then .error .ErrIllegalArgument
    else
      let pb := env.priceBounds deal.PieceSize deal.Duration
      if deal.StoragePricePerEpoch < pb.1 ∨ deal.StoragePricePerEpoch > pb.2 then
        .error .ErrIllegalArgument
      else
        let pcb := env.providerCollateralBounds deal.PieceSize deal.Duration
        if deal.ProviderCollateral < pcb.1 ∨ deal.ProviderCollateral > pcb.2 then
          .error .ErrIllegalArgument
        else
          let ccb := env.clientCollateralBounds deal.PieceSize deal.Duration
          if deal.ClientCollateral < ccb.1 ∨ deal.ClientCollateral > ccb.2 then
            .error .ErrIllegalArgument
          else .ok ()

/-- One iteration of the PublishStorageDeals transaction loop: validate the
deal, check its provider, resolve and canonicalise the client, run the
deferred updates for both parties, lock both balance requirements, allocate
the next deal id (`NextId++`) and insert into `Proposals` and both
`DealIDsByParty` entries.  Returns the state, the new id, and the slashed
amount accumulated by the deferred updates. -/
def publishOne (env : MarketEnv) (now : Int) (provider providerRaw : Nat)
    (st : MarketState) (deal : DealProposal) :
    Except ExitCode (MarketState × Nat × Int) :=
  match validateDeal env now deal with
  | .error e => .error e
  | .ok _ =>
    if deal.Provider ≠ provider ∧ deal.Provider ≠ providerRaw then
      .error .ErrIllegalArgument
    else
      match env.resolve deal.Client with
      | none => .error .ErrNotFound
      | some client =>
        let deal' := { deal with Provider := provider, Client := client }
        match updatePendingDealStatesForParty now client st with
        | .error e => .error e
        | .ok (slash1, st1) =>
          match updatePendingDealStatesForParty now provider st1 with
          | .error e => .error e
          | .ok (slash2, st2) =>
            match lockBalanceOrAbort st2 client deal'.ClientBalanceRequirement with
            | .error e => .error e
            | .ok st3 =>
              match lockBalanceOrAbort st3 provider deal'.ProviderBalanceRequirement with
              | .error e => .error e
              | .ok st4 =>
                let id := st4.NextID
                let st5 := { st4 with
                  NextID := id + 1,
                  Proposals := Function.update st4.Proposals id (some deal'),
                  DealIDsByParty := Function.update
                    (Function.update st4.DealIDsByParty client
                      (insertID id (st4.DealIDsByParty client)))
                    provider
                    (insertID id ((Function.update st4.DealIDsByParty client
                      (insertID id (st4.DealIDsByParty client))) provider)) }
                .ok (st5, id, slash1 + slash2)

/-- The PublishStorageDeals transaction body: fold `publishOne` over the deals
in input order, collecting the new ids and the total slashed amount. -/
def publishLoop (env : MarketEnv) (now : Int) (provider providerRaw : Nat) :
    List DealProposal → MarketState → Except ExitCode (MarketState × List Nat × Int)
  | [], st => .ok (st, [], 0)
  | deal :: rest, st =>
    match publishOne env now provider providerRaw st deal with
    | .error e => .error e
    | .ok (st1, id, slash) =>
      match publishLoop env now provider providerRaw rest st1 with
      | .error e => .error e
      | .ok (st2, ids, slashRest) => .ok (st2, id :: ids, slash + slashRest)

/-- PublishStorageDeals from market_actor.go.  The caller-type check, provider
resolution, worker check and `VerifiedRegistry.UseBytes` sends happen before
the state transaction; the transaction body is `publishLoop`.  Modelled from
the spec: an error inside the transaction aborts the message with the state
rolled back (§7 Propagation), hence the error branch returns the entry
state. -/
def PublishStorageDeals (env : MarketEnv) (caller : Nat) (now : Int)
    (deals : List DealProposal) (st : MarketState) :
    MarketState × Except ExitCode (List Nat) :=
  if ¬ env.isSignable caller then (st, .error .SysErrForbidden)
  else
    match deals with
    | [] => (st, .error .ErrIllegalArgument)
    | d0 :: _ =>
      match env.resolve d0.Provider with
      | none => (st, .error .ErrNotFound)
      | some provider =>
        if env.minerWorker provider ≠ caller then (st, .error .ErrForbidden)
        else if ¬ (deals.all fun d => !d.VerifiedDeal || env.useBytesOk d.Client d.PieceSize) then
          (st, .error .SysErrForbidden)
        else
          match publishLoop env now provider d0.Provider deals st with
          | .error e => (st, .error e)
          | .ok (st', ids, _) => (st', .ok ids)

/-- Loop body of HandleInitTimeoutDeals: per deal, fetch proposal and state;
unactivated deals past their start epoch are timed out (collecting verified
deals for the later RestoreBytes sends), unactivated deals not yet past their
start epoch abort, activated deals are skipped.  The accumulator `slashed`
mirrors the source exactly: the result of `big.Add(slashed, newlySlashed)` is
discarded there, so the accumulator is left unchanged. -/
def HandleInitTimeoutLoop (now : Int) :
    List Nat → MarketState → Int → List DealProposal →
    Except ExitCode (MarketState × Int × List DealProposal)
  | [], st, slashed, verifiedDeals => .ok (st, slashed, verifiedDeals)
  | dealID :: rest, st, slashed, verifiedDeals =>
    match st.Proposals dealID with
    | none => .error .ErrIllegalState
    | some deal =>
      let state := getDealState st dealID
      if state.SectorStartEpoch = epochUndefined then
        if now > deal.StartEpoch then
          let verifiedDeals' :=
            if deal.VerifiedDeal then verifiedDeals ++ [deal] else verifiedDeals
          let r := processDealInitTimedOut st dealID deal
          let _discarded := slashed + r.1
          HandleInitTimeoutLoop now rest r.2 slashed verifiedDeals'
        else .error .ErrIllegalArgument
      else HandleInitTimeoutLoop now rest st slashed verifiedDeals

/-- HandleInitTimeoutDeals from market_actor.go: run the loop, then emit the
RestoreBytes sends for the collected verified deals and burn the accumulated
`slashedAmount`.  Returns the state, the burned amount, and the
(client, pieceSize) RestoreBytes sends. -/
def HandleInitTimeoutDeals (now : Int) (dealIDs : List Nat) (st : MarketState) :
    Except ExitCode (MarketState × Int × List (Nat × Nat)) :=
  match HandleInitTimeoutLoop now dealIDs st 0 [] with
  | .error e => .error e
  | .ok (st', slashedAmount, verifiedDeals) =>
    .ok (st', slashedAmount, verifiedDeals.map fun d => (d.Client, d.PieceSize))

/-- Projection of the burned amount of a HandleInitTimeoutDeals run. -/
def burnedOf (r : Except ExitCode (MarketState × Int × List (Nat × Nat))) : Option Int :=
  match r with
  | .ok (_, b, _) => some b
  | .error _ => none

/-- Spec invariant on deal-id allocation (§3.1): ids at or above `NextId`
are unused in `Proposals` and `States`. -/
def FreshDealIDs (st : MarketState) : Prop :=
  ∀ i, st.NextID ≤ i → st.Proposals i = none ∧ st.States i = none

/-! ## Concrete example instances (used by scenario claims and witnesses) -/

/-- The vesting spec of the spec's vesting scenario:
`{Delay=0, Period=100, Step=10, Quant=10}`. -/
def exVestSpec : VestSpec := ⟨0, 100, 10, 10⟩

/-- An empty miner state. -/
def exMinerState : MinerState := ⟨0, 0, [], ∅, []⟩

/-- The miner state after the scenario's AddLockedFunds. -/
def exVestedState : MinerState :=
  ⟨0, 1000,
   [(10, 100), (20, 100), (30, 100), (40, 100), (50, 100),
    (60, 100), (70, 100), (80, 100), (90, 100), (100, 100)], ∅, []⟩

/-- The miner state after the scenario's UnlockVestedFunds(55). -/
def exUnlockedState : MinerState :=
  ⟨0, 500, [(60, 100), (70, 100), (80, 100), (90, 100), (100, 100)], ∅, []⟩

/-- An unactivated deal with provider collateral 10 and start epoch 50
(client id 1, provider id 2). -/
def exDeal : DealProposal := ⟨7, 1024, false, 1, 2, 50, 150, 1, 10, 5⟩

/-- A market state holding only `exDeal` (deal id 0), published but never
activated. -/
def exTimeoutState : MarketState where
  EscrowTable := fun a => if a = 1 then 110 else if a = 2 then 10 else 0
  LockedTable := fun a => if a = 1 then 105 else if a = 2 then 10 else 0
  Proposals := Function.update (fun _ => none) 0 (some exDeal)
  States := fun _ => none
  DealIDsByParty := fun a => if a = 1 then [0] else if a = 2 then [0] else []
  NextID := 1

/-- A benign runtime environment: every address resolves to itself as an
ordinary signable account, and every syscall succeeds. -/
def exMarketEnv : MarketEnv where
  resolve := fun a => some a
  isMiner := fun _ => false
  minerOwner := fun a => a
  minerWorker := fun a => a
  isSignable := fun _ => true
  dealValid := fun _ => true
  durationBounds := fun _ => (0, 10000)
  priceBounds := fun _ _ => (0, 10000)
  providerCollateralBounds := fun _ _ => (0, 10000)
  clientCollateralBounds := fun _ _ => (0, 10000)
  useBytesOk := fun _ _ => true

/-- An empty market state. -/
def exEmptyMarket : MarketState where
  EscrowTable := fun _ => 0
  LockedTable := fun _ => 0
  Proposals := fun _ => none
  States := fun _ => none
  DealIDsByParty := fun _ => []
  NextID := 0

/-- A market state with funded, unencumbered escrow for client 1 and
provider 2. -/
def exFundedMarket : MarketState where
  EscrowTable := fun a => if a = 1 then 200 else if a = 2 then 50 else 0
  LockedTable := fun _ => 0
  Proposals := fun _ => none
  States := fun _ => none
  DealIDsByParty := fun _ => []
  NextID := 0

/-! ## Association-list and loop lemmas -/

theorem valSum_insertKV_add (k : Nat) (d : Int) (l : List (Nat × Int)) :
    valSum (insertKV k ((lookupKV k l).getD 0 + d) l) = valSum l + d := by
  induction l with
  | nil => simp [insertKV, lookupKV, valSum]
  | cons kv rest ih =>
    obtain ⟨k', v'⟩ := kv
    rcases lt_trichotomy k k' with h | h | h
    · simp only [insertKV, lookupKV, if_pos h, valSum, Option.getD_none]
      ring
    · subst h
      simp only [insertKV, lookupKV, lt_irrefl, if_neg, if_pos rfl, valSum,
        Option.getD_some, ite_false, ite_true]
      ring
    · have h1 : ¬ k < k' := not_lt_of_gt h
      have h2 : k ≠ k' := ne_of_gt h
      simp only [insertKV, lookupKV, if_neg h1, if_neg h2, valSum, ih]
      ring

theorem valSum_vestTableAdd (table : List (Nat × Int)) (e d : Int) :
    valSum (vestTableAdd table e d) = valSum table + d :=
  valSum_insertKV_add _ d table

theorem unionVals_insertKV (k : Nat) (s : Finset Nat) (l : List (Nat × Finset Nat)) :
    unionVals (insertKV k ((lookupKV k l).getD ∅ ∪ s) l) = unionVals l ∪ s := by
  induction l with
  | nil => simp [insertKV, lookupKV, unionVals]
  | cons kv rest ih =>
    obtain ⟨k', v'⟩ := kv
    rcases lt_trichotomy k k' with h | h | h
    · simp only [insertKV, lookupKV, if_pos h, unionVals, Option.getD_none]
      simp [Finset.union_assoc, Finset.union_comm, Finset.union_left_comm]
    · subst h
      simp only [insertKV, lookupKV, lt_irrefl, if_neg, if_pos rfl, unionVals,
        Option.getD_some, ite_false, ite_true]
      simp [Finset.union_assoc, Finset.union_comm, Finset.union_left_comm]
    · have h1 : ¬ k < k' := not_lt_of_gt h
      have h2 : k ≠ k' := ne_of_gt h
      simp only [insertKV, lookupKV, if_neg h1, if_neg h2, unionVals, ih]
      simp [Finset.union_assoc, Finset.union_comm, Finset.union_left_comm]

theorem UnlockVestedLoop_sum (c : Int) (l : List (Nat × Int)) :
    (UnlockVestedLoop c l).1 + valSum (UnlockVestedLoop c l).2 = valSum l := by
  induction l with
  | nil => simp [UnlockVestedLoop, valSum]
  | cons kv rest ih =>
    obtain ⟨k, v⟩ := kv
    by_cases h : keyToInt64 k < c
    · simp only [UnlockVestedLoop, if_pos h, valSum]
      linarith
    · simp only [UnlockVestedLoop, if_neg h, valSum]
      ring

theorem UnlockUnvestedLoop_sum (c t : Int) (l : List (Nat × Int)) :
    ∀ a : Int, (UnlockUnvestedLoop c t l a).1 + valSum (UnlockUnvestedLoop c t l a).2 =
      a + valSum l := by
  induction l with
  | nil => intro a; simp [UnlockUnvestedLoop, valSum]
  | cons kv rest ih =>
    intro a
    obtain ⟨k, v⟩ := kv
    by_cases h1 : a < t
    · by_cases h2 : c ≤ keyToInt64 k
      · simp only [UnlockUnvestedLoop, if_pos h1, if_pos h2]
        by_cases h3 : v - min (t - a) v = 0
        · simp only [if_pos h3]
          have := ih (a + min (t - a) v)
          simp only [valSum]
          linarith
        · simp only [if_neg h3, valSum]
          have := ih (a + min (t - a) v)
          linarith
      · simp only [UnlockUnvestedLoop, if_pos h1, if_neg h2, valSum]
        have := ih a
        linarith
    · simp only [UnlockUnvestedLoop, if_neg h1, valSum]

theorem vestTarget_le (vestingSum : Int) (spec : VestSpec) (vestBegin e : Int)
    (hvp : 0 < spec.VestPeriod) (hvs : 0 ≤ vestingSum) :
    vestTarget vestingSum spec vestBegin e ≤ vestingSum := by
  unfold vestTarget
  split
  · rename_i hlt
    calc vestingSum * (quantizeUp e spec.Quantization - vestBegin) / spec.VestPeriod
        ≤ vestingSum * spec.VestPeriod / spec.VestPeriod :=
          Int.ediv_le_ediv hvp (mul_le_mul_of_nonneg_left hlt.le hvs)
      _ = vestingSum := Int.mul_ediv_cancel _ (ne_of_gt hvp)
  · exact le_refl _

theorem AddLockedFundsLoop_sum (vestingSum : Int) (spec : VestSpec) (vestBegin : Int)
    (hvp : 0 < spec.VestPeriod) (hvs : 0 ≤ vestingSum) :
    ∀ (fuel : Nat) (e vestedSoFar : Int) (table table' : List (Nat × Int)),
      vestedSoFar ≤ vestingSum →
      AddLockedFundsLoop vestingSum spec vestBegin fuel e vestedSoFar table = some table' →
      valSum table' = valSum table + (vestingSum - vestedSoFar) := by
  intro fuel
  induction fuel with
  | zero =>
    intro e v table table' hle h
    rw [AddLockedFundsLoop] at h
    split at h
    · exact absurd h (by simp)
    · rename_i hnot
      have hv : v = vestingSum := le_antisymm hle (not_lt.mp hnot)
      have ht : table = table' := Option.some.inj h
      rw [← ht, hv]
      ring
  | succ fuel ih =>
    intro e v table table' hle h
    rw [AddLockedFundsLoop] at h
    split at h
    · have htle := vestTarget_le vestingSum spec vestBegin e hvp hvs
      have := ih (e + spec.StepDuration) (vestTarget vestingSum spec vestBegin e)
        (vestTableAdd table (quantizeUp e spec.Quantization)
          (vestTarget vestingSum spec vestBegin e - v)) table' htle h
      rw [valSum_vestTableAdd] at this
      rw [this]
      ring
    · rename_i hnot
      have hv : v = vestingSum := le_antisymm hle (not_lt.mp hnot)
      have ht : table = table' := Option.some.inj h
      rw [← ht, hv]
      ring

/-! ## Claim theorems -/

/-- C9: quantizeUp is idempotent: for every epoch e and every quantization
unit u > 0, `quantizeUp (quantizeUp e u) u = quantizeUp e u`. -/
theorem C9_quantizeUp_idempotent (e u : Int) (hu : 0 < u) :
    quantizeUp (quantizeUp e u) u = quantizeUp e u := by
  by_cases hr : e.tmod u = 0
  · simp [quantizeUp, hr]
  · have h1 : e - e.tmod u = u * e.tdiv u := by
      have h := Int.tdiv_add_tmod e u
      linarith
    have h2 : (e - e.tmod u + u).tmod u = 0 := by
      have h3 : e - e.tmod u + u = u * (e.tdiv u + 1) := by rw [h1]; ring
      rw [h3]
      exact Int.mul_tmod_right u (e.tdiv u + 1)
    simp [quantizeUp, hr, h2]

/-- Witness for C9 at e = 7, u = 3. -/
theorem C9_quantizeUp_idempotent_witness :
    0 < (3 : Int) ∧ quantizeUp (quantizeUp 7 3) 3 = quantizeUp 7 3 :=
  ⟨by decide, C9_quantizeUp_idempotent 7 3 (by decide)⟩

/-- C4: on an empty vesting table, AddLockedFunds(now=0, vestingSum=1000,
spec={InitialDelay=0, VestPeriod=100, StepDuration=10, Quantization=10})
yields the table {10:100, 20:100, …, 100:100} with LockedFunds = 1000, and a
subsequent UnlockVestedFunds(55) returns 500 leaving the table
{60:100, …, 100:100}, following the truncated-division vesting target. -/
theorem C4_vesting_scenario :
    AddLockedFunds exMinerState 20 0 1000 exVestSpec = some exVestedState ∧
    UnlockVestedFunds exVestedState 55 = some (500, exUnlockedState) := by
  constructor
  · decide
  · decide

/-- C8: for elapsed ≥ 0 and collateral ≥ 0, rewardForConsensusSlashReport
computes `min(collateral · initialShare · growthRate^elapsed, collateral/2)`
in exact big-integer arithmetic (initialShare = 1/1000, growthRate =
101251/100000, one final Euclidean division), and the result never exceeds
collateral/2 (stated exactly: twice the reward is at most the collateral). -/
theorem C8_rewardForConsensusSlashReport_spec (elapsedEpoch collateral : Int)
    (he : 0 ≤ elapsedEpoch) (hc : 0 ≤ collateral) :
    rewardForConsensusSlashReport elapsedEpoch collateral =
      min (collateral * 101251 ^ elapsedEpoch.toNat / (1000 * 100000 ^ elapsedEpoch.toNat))
        (collateral / 2) ∧
    2 * rewardForConsensusSlashReport elapsedEpoch collateral ≤ collateral := by
  have hunfold : rewardForConsensusSlashReport elapsedEpoch collateral =
      min (101251 ^ elapsedEpoch.toNat * 1 * collateral / (100000 ^ elapsedEpoch.toNat * 1000))
        (collateral * 1 / 2) := rfl
  constructor
  · rw [hunfold]
    congr 1
    · congr 1
      · ring
      · ring
    · congr 1
      ring
  · have hle : rewardForConsensusSlashReport elapsedEpoch collateral ≤ collateral * 1 / 2 := by
      rw [hunfold]
      exact min_le_right _ _
    have hcc : collateral * 1 = collateral := by ring
    rw [hcc] at hle
    have hd := Int.ediv_add_emod collateral 2
    have hm := Int.emod_nonneg collateral (by norm_num : (2 : Int) ≠ 0)
    linarith

/-- Witness for C8 at elapsed = 5, collateral = 1000000. -/
theorem C8_rewardForConsensusSlashReport_spec_witness :
    rewardForConsensusSlashReport 5 1000000 =
      min ((1000000 : Int) * 101251 ^ (5 : Int).toNat / (1000 * 100000 ^ (5 : Int).toNat))
        ((1000000 : Int) / 2) ∧
    2 * rewardForConsensusSlashReport 5 1000000 ≤ 1000000 :=
  C8_rewardForConsensusSlashReport_spec 5 1000000 (by decide) (by decide)

/-- C10: WithdrawBalance called with a negative amount aborts with
`ErrIllegalArgument` immediately — for every environment and state, before the
address is resolved or any state is touched, and no funds are sent. -/
theorem C10_withdrawBalance_negative_aborts (env : MarketEnv) (caller : Nat)
    (now : Int) (a : Nat) (amount : Int) (st : MarketState) (h : amount < 0) :
    WithdrawBalance env caller now a amount st = .error .ErrIllegalArgument := by
  unfold WithdrawBalance
  rw [if_pos h]

/-- Witness for C10 at amount = −1. -/
theorem C10_withdrawBalance_negative_aborts_witness :
    WithdrawBalance exMarketEnv 1 0 2 (-1) exEmptyMarket = .error .ErrIllegalArgument :=
  C10_withdrawBalance_negative_aborts exMarketEnv 1 0 2 (-1) exEmptyMarket (by decide)

/-- C1 (code bug): timing out the single unactivated deal `exDeal` (provider
collateral 10 > 0, start epoch 50) at epoch 51 succeeds but burns 0 rather
than the slashed provider collateral: the source discards the result of
`big.Add(slashed, newlySlashed)`, so the amount sent to the burnt-funds sink
is always zero. -/
theorem C1_handleInitTimeoutDeals_burns_zero :
    burnedOf (HandleInitTimeoutDeals 51 [0] exTimeoutState) = some 0 ∧
    exDeal.ProviderCollateral = 10 := by
  constructor
  · rfl
  · rfl

/-- Bitfield-table write-back of RemoveFaults expressed on the values: every
entry ends up with the sector numbers subtracted (entries whose count did not
change were already disjoint from them). -/
theorem unionVals_removeFaultsMap (s : Finset Nat) (l : List (Nat × Finset Nat)) :
    unionVals (l.map (fun kv =>
      if (kv.2 \ s).card ≠ kv.2.card then (kv.1, kv.2 \ s) else kv)) =
      unionVals l \ s := by
  induction l with
  | nil => simp [unionVals]
  | cons kv rest ih =>
    simp only [List.map, unionVals]
    have hhead : (if (kv.2 \ s).card ≠ kv.2.card then (kv.1, kv.2 \ s) else kv).2 =
        kv.2 \ s := by
      split
      · rfl
      · rename_i hcard
        have hc : (kv.2 \ s).card = kv.2.card := not_ne_iff.mp hcard
        have hsub : kv.2 \ s ⊆ kv.2 := Finset.sdiff_subset
        have heq : kv.2 \ s = kv.2 :=
          Finset.eq_of_subset_of_card_le hsub (le_of_eq hc.symm)
        rw [heq]
    rw [hhead, ih, Finset.union_sdiff_distrib]

/-- C5: the invariant `sum(VestingFunds.values) == LockedFunds` is preserved
by every funds operation that succeeds: AddLockedFunds (whose success implies
the asserted non-negative vestingSum; the vest spec's period is positive),
UnlockVestedFunds, and UnlockUnvestedFunds. -/
theorem C5_vesting_sum_invariant :
    (∀ (fuel : Nat) (now vestingSum : Int) (spec : VestSpec) (st st' : MinerState),
        0 < spec.VestPeriod →
        AddLockedFunds st fuel now vestingSum spec = some st' →
        VestSumInvariant st → VestSumInvariant st') ∧
    (∀ (now : Int) (st : MinerState) (amt : Int) (st' : MinerState),
        UnlockVestedFunds st now = some (amt, st') →
        VestSumInvariant st → VestSumInvariant st') ∧
    (∀ (now target : Int) (st : MinerState) (amt : Int) (st' : MinerState),
        UnlockUnvestedFunds st now target = some (amt, st') →
        VestSumInvariant st → VestSumInvariant st') := by
  refine ⟨?_, ?_, ?_⟩
  · intro fuel now vestingSum spec st st' hvp h hinv
    unfold AddLockedFunds at h
    split at h
    · exact absurd h (by simp)
    · rename_i hneg
      have hvs : 0 ≤ vestingSum := not_lt.mp hneg
      cases heq : AddLockedFundsLoop vestingSum spec (now + spec.InitialDelay) fuel
          (now + spec.InitialDelay + spec.StepDuration) 0 st.VestingFunds with
      | none => rw [heq] at h; exact absurd h (by simp)
      | some table =>
        rw [heq] at h
        have hsum := AddLockedFundsLoop_sum vestingSum spec (now + spec.InitialDelay) hvp hvs
          fuel (now + spec.InitialDelay + spec.StepDuration) 0 st.VestingFunds table hvs heq
        have hst : ({ st with VestingFunds := table,
                              LockedFunds := st.LockedFunds + vestingSum } :
            MinerState) = st' :=
          Option.some.inj h
        rw [← hst]
        show valSum table = st.LockedFunds + vestingSum
        have hinv' : valSum st.VestingFunds = st.LockedFunds := hinv
        rw [hsum, hinv']
        ring
  · intro now st amt st' h hinv
    unfold UnlockVestedFunds at h
    split at h
    · have hp := Option.some.inj h
      have hst : ({ st with VestingFunds := (UnlockVestedLoop now st.VestingFunds).2,
                            LockedFunds := st.LockedFunds -
                              (UnlockVestedLoop now st.VestingFunds).1 } :
          MinerState) = st' := congrArg Prod.snd hp
      rw [← hst]
      show valSum (UnlockVestedLoop now st.VestingFunds).2 =
        st.LockedFunds - (UnlockVestedLoop now st.VestingFunds).1
      have hsum := UnlockVestedLoop_sum now st.VestingFunds
      have hinv' : valSum st.VestingFunds = st.LockedFunds := hinv
      linarith
    · exact absurd h (by simp)
  · intro now target st amt st' h hinv
    unfold UnlockUnvestedFunds at h
    split at h
    · have hp := Option.some.inj h
      have hst : ({ st with
                    VestingFunds := (UnlockUnvestedLoop now target st.VestingFunds 0).2,
                    LockedFunds := st.LockedFunds -
                      (UnlockUnvestedLoop now target st.VestingFunds 0).1 } :
          MinerState) = st' := congrArg Prod.snd hp
      rw [← hst]
      show valSum (UnlockUnvestedLoop now target st.VestingFunds 0).2 =
        st.LockedFunds - (UnlockUnvestedLoop now target st.VestingFunds 0).1
      have hsum := UnlockUnvestedLoop_sum now target st.VestingFunds 0
      have hinv' : valSum st.VestingFunds = st.LockedFunds := hinv
      linarith
    · exact absurd h (by simp)

/-- Witness for C5, applying the UnlockVestedFunds part on the empty miner
state. -/
theorem C5_vesting_sum_invariant_witness : VestSumInvariant exMinerState :=
  C5_vesting_sum_invariant.2.1 5 exMinerState 0 exMinerState (by decide) rfl

/-- C7: the invariant `Faults == ⋃ FaultEpochs.values` is preserved by
AddFaults (which adds the sectors both to Faults and to
FaultEpochs[faultEpoch]) and by RemoveFaults (which removes them from Faults
and from every FaultEpochs entry). -/
theorem C7_faults_invariant :
    (∀ (st : MinerState) (sectorNos : Finset Nat) (faultEpoch : Int) (st' : MinerState),
        AddFaults st sectorNos faultEpoch = some st' →
        FaultsInvariant st → FaultsInvariant st') ∧
    (∀ (st : MinerState) (sectorNos : Finset Nat),
        FaultsInvariant st → FaultsInvariant (RemoveFaults st sectorNos)) := by
  constructor
  · intro st sectorNos faultEpoch st' h hinv
    unfold AddFaults at h
    split at h
    · exact (Option.some.inj h) ▸ hinv
    · split at h
      · exact absurd h (by simp)
      · have hst : ({ st with Faults := st.Faults ∪ sectorNos,
                              FaultEpochs := insertKV (EpochKey faultEpoch)
                                ((lookupKV (EpochKey faultEpoch) st.FaultEpochs).getD ∅ ∪
                                  sectorNos) st.FaultEpochs } :
            MinerState) = st' := Option.some.inj h
        rw [← hst]
        show st.Faults ∪ sectorNos =
          unionVals (insertKV (EpochKey faultEpoch)
            ((lookupKV (EpochKey faultEpoch) st.FaultEpochs).getD ∅ ∪ sectorNos)
            st.FaultEpochs)
        rw [unionVals_insertKV]
        have hinv' : st.Faults = unionVals st.FaultEpochs := hinv
        rw [hinv']
  · intro st sectorNos hinv
    by_cases hemp : sectorNos = ∅
    · have hr : RemoveFaults st sectorNos = st := by
        simp only [RemoveFaults, if_pos hemp]
      rw [hr]
      exact hinv
    · have hr : RemoveFaults st sectorNos =
          { st with Faults := st.Faults \ sectorNos,
                    FaultEpochs := st.FaultEpochs.map (fun kv =>
                      if (kv.2 \ sectorNos).card ≠ kv.2.card then (kv.1, kv.2 \ sectorNos)
                      else kv) } := by
        simp only [RemoveFaults, if_neg hemp]
      rw [hr]
      show st.Faults \ sectorNos =
        unionVals (st.FaultEpochs.map (fun kv =>
          if (kv.2 \ sectorNos).card ≠ kv.2.card then (kv.1, kv.2 \ sectorNos) else kv))
      rw [unionVals_removeFaultsMap]
      have hinv' : st.Faults = unionVals st.FaultEpochs := hinv
      rw [hinv']

/-- Witness for C7, applying the AddFaults part with an empty sector set. -/
theorem C7_faults_invariant_witness : FaultsInvariant exMinerState :=
  C7_faults_invariant.1 exMinerState ∅ 0 exMinerState (by decide) rfl

/-- validateDealCanActivate succeeds exactly when the four activation
conditions hold. -/
theorem validateDealCanActivate_ok (minerAddr : Nat) (sectorExpiration now : Int)
    (s : DealState) (p : DealProposal)
    (h : validateDealCanActivate minerAddr sectorExpiration now s p = .ok ()) :
    p.Provider = minerAddr ∧ s.SectorStartEpoch = epochUndefined ∧
    now ≤ p.StartEpoch ∧ p.EndEpoch ≤ sectorExpiration := by
  unfold validateDealCanActivate at h
  split_ifs at h with h1 h2 h3 h4
  exact ⟨not_ne_iff.mp h1, not_ne_iff.mp h2, not_lt.mp h3, not_lt.mp h4⟩

/-- validateDealCanActivate can only fail with ErrIllegalArgument. -/
theorem validateDealCanActivate_error (minerAddr : Nat) (sectorExpiration now : Int)
    (s : DealState) (p : DealProposal) (e : ExitCode)
    (h : validateDealCanActivate minerAddr sectorExpiration now s p = .error e) :
    e = .ErrIllegalArgument := by
  unfold validateDealCanActivate at h
  split_ifs at h <;> simp_all

/-- weightSum only reads the proposals table. -/
theorem weightSum_congr (st1 st2 : MarketState) (h : st1.Proposals = st2.Proposals)
    (b : Bool) : ∀ l : List Nat, weightSum st1 b l = weightSum st2 b l := by
  intro l
  induction l with
  | nil => rfl
  | cons id rest ih =>
    unfold weightSum
    rw [ih, h]


/-- activateDeal writes the deal's own state entry. -/
theorem activateDeal_States_same (st : MarketState) (dealID : Nat) (now : Int) :
    (activateDeal st dealID now).States dealID =
      some { getDealState st dealID with SectorStartEpoch := now } :=
  Function.update_same _ _ _

/-- activateDeal leaves other deals' state entries unchanged. -/
theorem activateDeal_States_ne (st : MarketState) (dealID q : Nat) (now : Int)
    (h : q ≠ dealID) : (activateDeal st dealID now).States q = st.States q :=
  Function.update_noteq h _ _

/-- activateDeal sets the deal's own sentinel-defaulted state's start epoch. -/
theorem getDealState_activateDeal_same (st : MarketState) (dealID : Nat) (now : Int) :
    getDealState (activateDeal st dealID now) dealID =
      { getDealState st dealID with SectorStartEpoch := now } := by
  unfold getDealState
  rw [activateDeal_States_same]
  rfl

/-- activateDeal leaves other deals' sentinel-defaulted states unchanged. -/
theorem getDealState_activateDeal_ne (st : MarketState) (dealID q : Nat) (now : Int)
    (h : q ≠ dealID) : getDealState (activateDeal st dealID now) q = getDealState st q := by
  unfold getDealState
  rw [activateDeal_States_ne st dealID q now h]

/-- Characterisation of a successful VerifyDealsLoop run: every listed deal
satisfied the activation conditions against the entry state, its sector start
epoch is set to `now`, nothing else changes, and the accumulators grow by the
(verified) deal weights. -/
theorem VerifyDealsLoop_ok (minerAddr : Nat) (now expiry : Int) :
    ∀ (ids : List Nat) (st : MarketState) (dw vdw : Int)
      (st' : MarketState) (dw' vdw' : Int),
      VerifyDealsLoop minerAddr now expiry ids st dw vdw = .ok (st', dw', vdw') →
      (∀ id ∈ ids, ∃ p, st.Proposals id = some p ∧ p.Provider = minerAddr ∧
          (getDealState st id).SectorStartEpoch = epochUndefined ∧
          now ≤ p.StartEpoch ∧ p.EndEpoch ≤ expiry ∧
          st'.States id = some { getDealState st id with SectorStartEpoch := now }) ∧
      (∀ id, id ∉ ids → st'.States id = st.States id) ∧
      st'.Proposals = st.Proposals ∧ st'.EscrowTable = st.EscrowTable ∧
      st'.LockedTable = st.LockedTable ∧ st'.DealIDsByParty = st.DealIDsByParty ∧
      st'.NextID = st.NextID ∧
      dw' = dw + weightSum st false ids ∧ vdw' = vdw + weightSum st true ids := by
  intro ids
  induction ids with
  | nil =>
    intro st dw vdw st' dw' vdw' h
    rw [VerifyDealsLoop] at h
    simp only [Except.ok.injEq, Prod.mk.injEq] at h
    obtain ⟨h1, h2, h3⟩ := h
    subst h1
    subst h2
    subst h3
    exact ⟨by simp, fun id _ => rfl, rfl, rfl, rfl, rfl, rfl,
      by simp [weightSum], by simp [weightSum]⟩
  | cons id rest ih =>
    intro st dw vdw st' dw' vdw' h
    rw [VerifyDealsLoop] at h
    cases hp : st.Proposals id with
    | none => rw [hp] at h; exact absurd h (by simp)
    | some p =>
      rw [hp] at h
      dsimp only at h
      cases hv : validateDealCanActivate minerAddr expiry now (getDealState st id) p with
      | error e => rw [hv] at h; exact absurd h (by simp)
      | ok u =>
        cases u
        rw [hv] at h
        dsimp only at h
        obtain ⟨hc1, hc2, hc3, hc4⟩ := validateDealCanActivate_ok _ _ _ _ _ hv
        cases hB : p.VerifiedDeal
        all_goals (
          rw [hB] at h
          simp only [Bool.false_eq_true, if_false, if_true] at h
          obtain ⟨IH1, IH2, IH3, IH4, IH5, IH6, IH7, IH8, IH9⟩ :=
            ih _ _ _ st' dw' vdw' h
          refine ⟨?_, ?_, IH3, IH4, IH5, IH6, IH7, ?_, ?_⟩
          · intro q hq
            by_cases hqi : q = id
            · subst hqi
              refine ⟨p, hp, hc1, hc2, hc3, hc4, ?_⟩
              by_cases hqr : q ∈ rest
              · obtain ⟨p', hp', hpprov, hsect, hstart, hend, hfin⟩ := IH1 q hqr
                rw [getDealState_activateDeal_same st q now] at hfin
                exact hfin
              · have hfr := IH2 q hqr
                rw [hfr]
                exact activateDeal_States_same st q now
            · have hqr : q ∈ rest := by
                rcases List.mem_cons.mp hq with h' | h'
                · exact absurd h' hqi
                · exact h'
              obtain ⟨p', hp', hpprov, hsect, hstart, hend, hfin⟩ := IH1 q hqr
              rw [getDealState_activateDeal_ne st id q now hqi] at hsect hfin
              exact ⟨p', hp', hpprov, hsect, hstart, hend, hfin⟩
          · intro q hq
            have hq1 : q ≠ id := fun hh => hq (hh ▸ List.mem_cons_self id rest)
            have hq2 : q ∉ rest := fun hh => hq (List.mem_cons_of_mem _ hh)
            rw [IH2 q hq2]
            exact activateDeal_States_ne st id q now hq1
          · rw [IH8, weightSum_congr (activateDeal st id now) st rfl false rest]
            conv_rhs => rw [weightSum]
            rw [hp]
            dsimp only
            simp only [hB, eq_self_iff_true, Bool.false_eq_true, Bool.true_eq_false,
              if_true, if_false]
            ring
          · rw [IH9, weightSum_congr (activateDeal st id now) st rfl true rest]
            conv_rhs => rw [weightSum]
            rw [hp]
            dsimp only
            simp only [hB, eq_self_iff_true, Bool.false_eq_true, Bool.true_eq_false,
              if_true, if_false]
            ring)

/-- A VerifyDealsLoop run over deals that are all present can only fail with
ErrIllegalArgument. -/
theorem VerifyDealsLoop_error (minerAddr : Nat) (now expiry : Int) :
    ∀ (ids : List Nat) (st : MarketState) (dw vdw : Int) (e : ExitCode),
      (∀ id ∈ ids, (st.Proposals id).isSome) →
      VerifyDealsLoop minerAddr now expiry ids st dw vdw = .error e →
      e = .ErrIllegalArgument := by
  intro ids
  induction ids with
  | nil =>
    intro st dw vdw e hall h
    rw [VerifyDealsLoop] at h
    exact absurd h (by simp)
  | cons id rest ih =>
    intro st dw vdw e hall h
    rw [VerifyDealsLoop] at h
    cases hp : st.Proposals id with
    | none =>
      have hs := hall id (List.mem_cons_self id rest)
      rw [hp] at hs
      exact absurd hs (by simp)
    | some p =>
      rw [hp] at h
      dsimp only at h
      cases hv : validateDealCanActivate minerAddr expiry now (getDealState st id) p with
      | error e' =>
        rw [hv] at h
        have he : e' = e := Except.error.inj h
        rw [← he]
        exact validateDealCanActivate_error _ _ _ _ _ e' hv
      | ok u =>
        cases u
        rw [hv] at h
        dsimp only at h
        have hall' : ∀ q ∈ rest, ((activateDeal st id now).Proposals q).isSome :=
          fun q hq => hall q (List.mem_cons_of_mem _ hq)
        cases hB : p.VerifiedDeal
        · rw [hB] at h
          simp only [Bool.false_eq_true, if_false] at h
          exact ih _ _ _ e hall' h
        · rw [hB] at h
          simp only [if_true] at h
          exact ih _ _ _ e hall' h

/-- C2: VerifyDealsOnSectorProveCommit — an empty dealIds list returns (0, 0)
with the state unchanged; on success every listed deal had the caller as
provider, was not already activated, satisfied `now ≤ StartEpoch` and
`EndEpoch ≤ sectorExpiry`, its SectorStartEpoch is set to the current epoch
(all other state unchanged), and the return value is the pair of deal
space-time sums `pieceSize · (endEpoch − startEpoch)` split by the verified
flag; when every listed deal exists, any abort is with ErrIllegalArgument. -/
theorem C2_verifyDealsOnSectorProveCommit_spec (minerAddr : Nat)
    (now sectorExpiry : Int) (ids : List Nat) (st : MarketState) :
    (VerifyDealsOnSectorProveCommit minerAddr now sectorExpiry [] st = .ok (st, 0, 0)) ∧
    (∀ (st' : MarketState) (dw vdw : Int),
      VerifyDealsOnSectorProveCommit minerAddr now sectorExpiry ids st =
          .ok (st', dw, vdw) →
      (∀ id ∈ ids, ∃ p, st.Proposals id = some p ∧ p.Provider = minerAddr ∧
          (getDealState st id).SectorStartEpoch = epochUndefined ∧
          now ≤ p.StartEpoch ∧ p.EndEpoch ≤ sectorExpiry ∧
          st'.States id = some { getDealState st id with SectorStartEpoch := now }) ∧
      (∀ id, id ∉ ids → st'.States id = st.States id) ∧
      st'.Proposals = st.Proposals ∧ st'.EscrowTable = st.EscrowTable ∧
      st'.LockedTable = st.LockedTable ∧ st'.DealIDsByParty = st.DealIDsByParty ∧
      st'.NextID = st.NextID ∧
      dw = weightSum st false ids ∧ vdw = weightSum st true ids) ∧
    ((∀ id ∈ ids, (st.Proposals id).isSome) →
      ∀ e, VerifyDealsOnSectorProveCommit minerAddr now sectorExpiry ids st = .error e →
        e = .ErrIllegalArgument) := by
  refine ⟨rfl, ?_, ?_⟩
  · intro st' dw vdw h
    obtain ⟨H1, H2, H3, H4, H5, H6, H7, H8, H9⟩ :=
      VerifyDealsLoop_ok minerAddr now sectorExpiry ids st 0 0 st' dw vdw h
    rw [zero_add] at H8 H9
    exact ⟨H1, H2, H3, H4, H5, H6, H7, H8, H9⟩
  · intro hall e h
    exact VerifyDealsLoop_error minerAddr now sectorExpiry ids st 0 0 e hall h

/-- Witness for C2: activating the single deal of `exTimeoutState` at its
start epoch yields its deal space-time as the unverified weight. -/
theorem C2_verifyDealsOnSectorProveCommit_spec_witness :
    (102400 : Int) = weightSum exTimeoutState false [0] :=
  (((C2_verifyDealsOnSectorProveCommit_spec 2 50 200 [0]
    exTimeoutState).2.1 _ 102400 0 rfl).2.2.2.2.2.2.2.1)

/-- C6: for every account address a and non-negative x, AddBalance(a, x)
followed by WithdrawBalance(a, x), when Locked[a] = 0 and a has no pending
deals (and escrow is non-negative, per the state invariant), sends exactly x
back to the recipient a and leaves the market state equal to the state before
the sequence. -/
theorem C6_addBalance_withdrawBalance_roundtrip (env : MarketEnv) (caller a : Nat)
    (now x : Int) (st : MarketState)
    (hres : env.resolve a = some a) (hmin : env.isMiner a = false)
    (hsig : env.isSignable caller = true)
    (hx : 0 ≤ x) (hlock : st.LockedTable a = 0) (hdeals : st.DealIDsByParty a = [])
    (hesc : 0 ≤ st.EscrowTable a) :
    ∃ st1, AddBalance env caller a x st = .ok st1 ∧
      WithdrawBalance env caller now a x st1 = .ok (st, [(a, x)]) := by
  have hea : escrowAddress env caller a = .ok (a, a) := by
    unfold escrowAddress
    rw [hres]
    dsimp only
    rw [hmin, hsig]
    simp
  refine ⟨addLockedBalance (addEscrowBalance st a x) a 0, ?_, ?_⟩
  · unfold AddBalance
    rw [hea]
  · have hupd : updatePendingDealStatesForParty now a
        (addLockedBalance (addEscrowBalance st a x) a 0) =
          .ok (0, addLockedBalance (addEscrowBalance st a x) a 0) := by
      unfold updatePendingDealStatesForParty
      have hd : (addLockedBalance (addEscrowBalance st a x) a 0).DealIDsByParty a = [] :=
        hdeals
      rw [hd]
      rfl
    have hbal : (addLockedBalance (addEscrowBalance st a x) a 0).EscrowTable a =
        st.EscrowTable a + x := by
      show Function.update st.EscrowTable a (st.EscrowTable a + x) a = _
      exact Function.update_same _ _ _
    have hlk : (addLockedBalance (addEscrowBalance st a x) a 0).LockedTable a = 0 := by
      show Function.update st.LockedTable a (st.LockedTable a + 0) a = 0
      rw [Function.update_same, add_zero]
      exact hlock
    have hsub : subtractWithMinimum (st.EscrowTable a + x) 0 x = some x := by
      unfold subtractWithMinimum
      rw [if_neg (lt_irrefl 0), if_neg (not_lt.mpr (add_nonneg hesc hx)), sub_zero,
        min_eq_right (le_add_of_nonneg_left hesc), max_eq_left hx]
    unfold WithdrawBalance
    rw [if_neg (not_lt.mpr hx), hea]
    dsimp only
    rw [hupd]
    dsimp only
    rw [hbal, hlk, hsub]
    dsimp only
    rw [if_neg (lt_irrefl 0)]
    have hstq : ({ addLockedBalance (addEscrowBalance st a x) a 0 with
        EscrowTable := Function.update
          (addLockedBalance (addEscrowBalance st a x) a 0).EscrowTable a
          (st.EscrowTable a + x - x) } : MarketState) = st := by
      show ({ st with
        EscrowTable := Function.update (Function.update st.EscrowTable a
          (st.EscrowTable a + x)) a (st.EscrowTable a + x - x),
        LockedTable := Function.update st.LockedTable a (st.LockedTable a + 0) } :
          MarketState) = st
      rw [Function.update_idem, add_sub_cancel_right, add_zero,
        Function.update_eq_self, Function.update_eq_self]
    rw [hstq]
    rfl

/-- Witness for C6 with x = 5 against the empty market. -/
theorem C6_addBalance_withdrawBalance_roundtrip_witness :
    ∃ st1, AddBalance exMarketEnv 1 3 5 exEmptyMarket = .ok st1 ∧
      WithdrawBalance exMarketEnv 1 0 3 5 st1 = .ok (exEmptyMarket, [(3, 5)]) :=
  C6_addBalance_withdrawBalance_roundtrip exMarketEnv 1 3 0 5 exEmptyMarket
    rfl rfl rfl (by decide) rfl rfl (by decide)

/-- Removing one deal id keeps every other member. -/
theorem removeID_mem (l : List Nat) (q dealID : Nat) (hq : q ∈ l) (hne : q ≠ dealID) :
    q ∈ removeID l dealID := by
  unfold removeID
  exact List.mem_filter.mpr ⟨hq, by simpa using hne⟩

/-- The inserted deal id is a member of the updated set. -/
theorem insertID_self_mem (dealID : Nat) (l : List Nat) : dealID ∈ insertID dealID l := by
  induction l with
  | nil => simp [insertID]
  | cons x rest ih =>
    unfold insertID
    split_ifs with h1 h2
    · exact List.mem_cons_self _ _
    · exact h2 ▸ List.mem_cons_self _ _
    · exact List.mem_cons_of_mem _ ih

/-- Insertion keeps every existing member. -/
theorem insertID_mem_of_mem (dealID q : Nat) (l : List Nat) (hq : q ∈ l) :
    q ∈ insertID dealID l := by
  induction l with
  | nil => simp at hq
  | cons x rest ih =>
    unfold insertID
    split_ifs with h1 h2
    · exact List.mem_cons_of_mem _ hq
    · exact hq
    · rcases List.mem_cons.mp hq with h | h
      · exact List.mem_cons.mpr (Or.inl h)
      · exact List.mem_cons_of_mem _ (ih h)

/-- deleteDeal leaves other deals' proposals unchanged. -/
theorem deleteDeal_Proposals_ne (st : MarketState) (dealID : Nat) (d : DealProposal)
    (q : Nat) (h : q ≠ dealID) : (deleteDeal st dealID d).Proposals q = st.Proposals q :=
  Function.update_noteq h _ _

/-- deleteDeal leaves other deals' states unchanged. -/
theorem deleteDeal_States_ne (st : MarketState) (dealID : Nat) (d : DealProposal)
    (q : Nat) (h : q ≠ dealID) : (deleteDeal st dealID d).States q = st.States q :=
  Function.update_noteq h _ _

/-- deleteDeal clears the deal's proposal. -/
theorem deleteDeal_Proposals_self (st : MarketState) (dealID : Nat) (d : DealProposal) :
    (deleteDeal st dealID d).Proposals dealID = none :=
  Function.update_same _ _ _

/-- deleteDeal clears the deal's state. -/
theorem deleteDeal_States_self (st : MarketState) (dealID : Nat) (d : DealProposal) :
    (deleteDeal st dealID d).States dealID = none :=
  Function.update_same _ _ _

/-- deleteDeal does not touch the id allocator. -/
theorem deleteDeal_NextID (st : MarketState) (dealID : Nat) (d : DealProposal) :
    (deleteDeal st dealID d).NextID = st.NextID := rfl

/-- deleteDeal keeps every other deal id in every party's deal-id set. -/
theorem deleteDeal_dbp_mem (st : MarketState) (dealID : Nat) (d : DealProposal)
    (q addr : Nat) (hne : q ≠ dealID) (hq : q ∈ st.DealIDsByParty addr) :
    q ∈ (deleteDeal st dealID d).DealIDsByParty addr := by
  unfold deleteDeal
  dsimp only
  by_cases hP : addr = d.Provider
  · rw [hP, Function.update_same]
    apply removeID_mem _ _ _ ?_ hne
    by_cases hC : d.Provider = d.Client
    · rw [hC, Function.update_same]
      rw [hP, hC] at hq
      exact removeID_mem _ _ _ hq hne
    · rw [Function.update_noteq hC]
      rw [hP] at hq
      exact hq
  · rw [Function.update_noteq hP]
    by_cases hC : addr = d.Client
    · rw [hC, Function.update_same]
      rw [hC] at hq
      exact removeID_mem _ _ _ hq hne
    · rw [Function.update_noteq hC]
      exact hq

/-- Common shape of the deal-deleting branches of the deferred update: deleting
`dealID` from a state that differs from `st` only in balances (and possibly the
deleted deal's own state entry) preserves id freshness and every other
unactivated deal. -/
theorem deleteBranch_preserves (st B : MarketState) (dealID : Nat) (d : DealProposal)
    (hP : B.Proposals = st.Proposals) (hS : ∀ q, q ≠ dealID → B.States q = st.States q)
    (hD : B.DealIDsByParty = st.DealIDsByParty) (hN : B.NextID = st.NextID) :
    (deleteDeal B dealID d).NextID = st.NextID ∧
    (FreshDealIDs st → FreshDealIDs (deleteDeal B dealID d)) ∧
    (∀ q p, q ≠ dealID → st.Proposals q = some p → st.States q = none →
      (deleteDeal B dealID d).Proposals q = some p ∧
      (deleteDeal B dealID d).States q = none ∧
      ∀ addr, q ∈ st.DealIDsByParty addr → q ∈ (deleteDeal B dealID d).DealIDsByParty addr) := by
  refine ⟨by rw [deleteDeal_NextID, hN], ?_, ?_⟩
  · intro hfresh i hi
    rw [deleteDeal_NextID, hN] at hi
    by_cases hii : i = dealID
    · subst hii
      exact ⟨deleteDeal_Proposals_self _ _ _, deleteDeal_States_self _ _ _⟩
    · refine ⟨?_, ?_⟩
      · rw [deleteDeal_Proposals_ne _ _ _ _ hii, hP]
        exact (hfresh i hi).1
      · rw [deleteDeal_States_ne _ _ _ _ hii, hS i hii]
        exact (hfresh i hi).2
  · intro q p hqne hq hqs
    refine ⟨?_, ?_, ?_⟩
    · rw [deleteDeal_Proposals_ne _ _ _ _ hqne, hP]
      exact hq
    · rw [deleteDeal_States_ne _ _ _ _ hqne, hS q hqne]
      exact hqs
    · intro addr hmem
      apply deleteDeal_dbp_mem _ _ _ _ _ hqne
      rw [hD]
      exact hmem

/-- The payment branch only rewrites the deal's own state entry. -/
theorem processDealPayment_States (st : MarketState) (dealID : Nat) (d : DealProposal)
    (s : DealState) (now : Int) :
    (processDealPayment st dealID d s now).States =
      Function.update st.States dealID (some { s with LastUpdatedEpoch := now }) := rfl

/-- The deferred update of one deal never changes the id allocator, keeps ids
at or above `NextId` unused, and preserves every unactivated deal whose start
epoch has not passed (its proposal, absent state entry, and memberships in the
party index). -/
theorem updatePendingDealState_preserves (now : Int) (dealID : Nat) (st : MarketState)
    (amt : Int) (st2 : MarketState)
    (h : updatePendingDealState now dealID st = .ok (amt, st2)) :
    st2.NextID = st.NextID ∧
    (FreshDealIDs st → FreshDealIDs st2) ∧
    (∀ q p, st.Proposals q = some p → st.States q = none → now ≤ p.StartEpoch →
      st2.Proposals q = some p ∧ st2.States q = none ∧
      ∀ addr, q ∈ st.DealIDsByParty addr → q ∈ st2.DealIDsByParty addr) := by
  unfold updatePendingDealState at h
  cases hprop : st.Proposals dealID with
  | none => rw [hprop] at h; exact absurd h (by simp)
  | some d =>
    rw [hprop] at h
    dsimp only at h
    by_cases hsec : (getDealState st dealID).SectorStartEpoch < 0
    · rw [if_pos hsec] at h
      by_cases htime : now > d.StartEpoch
      · rw [if_pos htime] at h
        have hst2 : (processDealInitTimedOut st dealID d).2 = st2 :=
          congrArg Prod.snd (Except.ok.inj h)
        rw [← hst2]
        have hdel := deleteBranch_preserves st
          (slashBalance (unlockBalance st d.Client d.ClientBalanceRequirement)
            d.Provider d.ProviderCollateral)
          dealID d rfl (fun _ _ => rfl) rfl rfl
        refine ⟨hdel.1, hdel.2.1, ?_⟩
        intro q p hq hqs hqstart
        have hqne : q ≠ dealID := by
          intro hqq
          subst hqq
          rw [hprop] at hq
          have hdp := Option.some.inj hq
          rw [hdp] at htime
          exact absurd hqstart (not_le.mpr htime)
        exact hdel.2.2 q p hqne hq hqs
      · rw [if_neg htime] at h
        have hst2 : st = st2 := congrArg Prod.snd (Except.ok.inj h)
        rw [← hst2]
        exact ⟨rfl, fun hf => hf, fun q p hq hqs _ => ⟨hq, hqs, fun _ hm => hm⟩⟩
    · rw [if_neg hsec] at h
      have hqne_of : ∀ q, st.States q = none → q ≠ dealID := by
        intro q hqs hqq
        subst hqq
        have hdflt : getDealState st q = ⟨epochUndefined, epochUndefined, epochUndefined⟩ := by
          unfold getDealState
          rw [hqs]
          rfl
        rw [hdflt] at hsec
        exact hsec (by norm_num [epochUndefined])
      by_cases hslash : 0 ≤ (getDealState st dealID).SlashEpoch
      · rw [if_pos hslash] at h
        have hst2 : (processDealSlashed st dealID d (getDealState st dealID)).2 = st2 :=
          congrArg Prod.snd (Except.ok.inj h)
        rw [← hst2]
        have hdel := deleteBranch_preserves st
          (slashBalance
            (unlockBalance
              (transferBalance st d.Client d.Provider
                (d.StoragePricePerEpoch *
                  ((getDealState st dealID).SlashEpoch -
                    dealElapsedStart (getDealState st dealID))))
              d.Client d.ClientCollateral)
            d.Provider d.ProviderCollateral)
          dealID d rfl (fun _ _ => rfl) rfl rfl
        refine ⟨hdel.1, hdel.2.1, ?_⟩
        intro q p hq hqs hqstart
        exact hdel.2.2 q p (hqne_of q hqs) hq hqs
      · rw [if_neg hslash] at h
        by_cases hpay : min now d.EndEpoch = d.EndEpoch
        · rw [if_pos hpay] at h
          have hst2 : processDealExpired st dealID d (getDealState st dealID) now = st2 :=
            congrArg Prod.snd (Except.ok.inj h)
          rw [← hst2]
          have hdel := deleteBranch_preserves st
            (unlockBalance
              (unlockBalance (processDealPayment st dealID d (getDealState st dealID) now)
                d.Client d.ClientCollateral)
              d.Provider d.ProviderCollateral)
            dealID d rfl
            (fun q hq => Function.update_noteq hq _ _) rfl rfl
          refine ⟨hdel.1, hdel.2.1, ?_⟩
          intro q p hq hqs hqstart
          exact hdel.2.2 q p (hqne_of q hqs) hq hqs
        · rw [if_neg hpay] at h
          have hst2 : processDealPayment st dealID d (getDealState st dealID) now = st2 :=
            congrArg Prod.snd (Except.ok.inj h)
          rw [← hst2]
          refine ⟨rfl, ?_, ?_⟩
          · intro hfresh i hi
            have hii : i ≠ dealID := by
              intro hid
              subst hid
              exact absurd hprop (by rw [(hfresh i hi).1]; simp)
            refine ⟨(hfresh i hi).1, ?_⟩
            rw [processDealPayment_States, Function.update_noteq hii]
            exact (hfresh i hi).2
          · intro q p hq hqs hqstart
            refine ⟨hq, ?_, fun _ hm => hm⟩
            rw [processDealPayment_States, Function.update_noteq (hqne_of q hqs)]
            exact hqs

/-- The deferred update over a list of deal ids preserves the allocator, id
freshness and every unactivated not-yet-due deal. -/
theorem updatePendingDealStates_preserves (now : Int) :
    ∀ (ids : List Nat) (st : MarketState) (amt : Int) (st2 : MarketState),
      updatePendingDealStates now ids st = .ok (amt, st2) →
      st2.NextID = st.NextID ∧
      (FreshDealIDs st → FreshDealIDs st2) ∧
      (∀ q p, st.Proposals q = some p → st.States q = none → now ≤ p.StartEpoch →
        st2.Proposals q = some p ∧ st2.States q = none ∧
        ∀ addr, q ∈ st.DealIDsByParty addr → q ∈ st2.DealIDsByParty addr) := by
  intro ids
  induction ids with
  | nil =>
    intro st amt st2 h
    rw [updatePendingDealStates] at h
    have hst2 : st = st2 := congrArg Prod.snd (Except.ok.inj h)
    rw [← hst2]
    exact ⟨rfl, fun hf => hf, fun q p hq hqs _ => ⟨hq, hqs, fun _ hm => hm⟩⟩
  | cons dealID rest ih =>
    intro st amt st2 h
    rw [updatePendingDealStates] at h
    cases h1 : updatePendingDealState now dealID st with
    | error e => rw [h1] at h; exact absurd h (by simp)
    | ok pr =>
      obtain ⟨a1, stm⟩ := pr
      rw [h1] at h
      dsimp only at h
      cases h2 : updatePendingDealStates now rest stm with
      | error e => rw [h2] at h; exact absurd h (by simp)
      | ok pr2 =>
        obtain ⟨a2, stf⟩ := pr2
        rw [h2] at h
        dsimp only at h
        have hstf : stf = st2 := congrArg Prod.snd (Except.ok.inj h)
        subst hstf
        obtain ⟨N1, F1, P1⟩ := updatePendingDealState_preserves now dealID st a1 stm h1
        obtain ⟨N2, F2, P2⟩ := ih stm a2 stf h2
        refine ⟨by rw [N2, N1], fun hf => F2 (F1 hf), ?_⟩
        intro q p hq hqs hqst
        obtain ⟨hq1, hqs1, hm1⟩ := P1 q p hq hqs hqst
        obtain ⟨hq2, hqs2, hm2⟩ := P2 q p hq1 hqs1 hqst
        exact ⟨hq2, hqs2, fun addr hm => hm2 addr (hm1 addr hm)⟩

/-- The per-party deferred update preserves the allocator, id freshness and
every unactivated not-yet-due deal. -/
theorem updatePendingDealStatesForParty_preserves (now : Int) (a : Nat)
    (st : MarketState) (amt : Int) (st2 : MarketState)
    (h : updatePendingDealStatesForParty now a st = .ok (amt, st2)) :
    st2.NextID = st.NextID ∧
    (FreshDealIDs st → FreshDealIDs st2) ∧
    (∀ q p, st.Proposals q = some p → st.States q = none → now ≤ p.StartEpoch →
      st2.Proposals q = some p ∧ st2.States q = none ∧
      ∀ addr, q ∈ st.DealIDsByParty addr → q ∈ st2.DealIDsByParty addr) :=
  updatePendingDealStates_preserves now (st.DealIDsByParty a) st amt st2 h

/-- A successful balance lock changes only the locked table. -/
theorem lockBalanceOrAbort_frame (st : MarketState) (a : Nat) (amount : Int)
    (st2 : MarketState) (h : lockBalanceOrAbort st a amount = .ok st2) :
    st2.Proposals = st.Proposals ∧ st2.States = st.States ∧
    st2.DealIDsByParty = st.DealIDsByParty ∧ st2.NextID = st.NextID := by
  unfold lockBalanceOrAbort at h
  split_ifs at h
  have hst2 := Except.ok.inj h
  rw [← hst2]
  exact ⟨rfl, rfl, rfl, rfl⟩

/-- A deal that passes publish validation has not reached its start epoch. -/
theorem validateDeal_ok_start (env : MarketEnv) (now : Int) (deal : DealProposal)
    (h : validateDeal env now deal = .ok ()) : now ≤ deal.StartEpoch := by
  unfold validateDeal at h
  dsimp only at h
  split_ifs at h with h1 h2 h3 h4 h5 h6 <;>
    first
    | exact Except.noConfusion h
    | exact not_lt.mp h2

/-- The double SetMultimap insertion of PublishStorageDeals keeps every
existing member of every party's deal-id set. -/
theorem publish_insert_dbp_mem (dbp : Nat → List Nat) (cl provider dealID q addr : Nat)
    (hq : q ∈ dbp addr) :
    q ∈ (Function.update (Function.update dbp cl (insertID dealID (dbp cl))) provider
      (insertID dealID
        ((Function.update dbp cl (insertID dealID (dbp cl))) provider))) addr := by
  by_cases hP : addr = provider
  · rw [hP, Function.update_same]
    apply insertID_mem_of_mem
    by_cases hC : provider = cl
    · rw [hC, Function.update_same]
      rw [hP, hC] at hq
      exact insertID_mem_of_mem _ _ _ hq
    · rw [Function.update_noteq hC]
      rw [hP] at hq
      exact hq
  · rw [Function.update_noteq hP]
    by_cases hC : addr = cl
    · rw [hC, Function.update_same]
      rw [hC] at hq
      exact insertID_mem_of_mem _ _ _ hq
    · rw [Function.update_noteq hC]
      exact hq

/-- The new deal id is a member of both parties' updated deal-id sets. -/
theorem publish_insert_dbp_self (dbp : Nat → List Nat) (cl provider dealID : Nat) :
    dealID ∈ (Function.update (Function.update dbp cl (insertID dealID (dbp cl))) provider
      (insertID dealID
        ((Function.update dbp cl (insertID dealID (dbp cl))) provider))) cl ∧
    dealID ∈ (Function.update (Function.update dbp cl (insertID dealID (dbp cl))) provider
      (insertID dealID
        ((Function.update dbp cl (insertID dealID (dbp cl))) provider))) provider := by
  constructor
  · by_cases hP : cl = provider
    · rw [hP, Function.update_same]
      exact insertID_self_mem _ _
    · rw [Function.update_noteq hP, Function.update_same]
      exact insertID_self_mem _ _
  · rw [Function.update_same]
    exact insertID_self_mem _ _

/-- Publishing one deal allocates exactly the next id, inserts the
canonicalised proposal and both party-index entries, preserves id freshness
and every previously inserted unactivated deal. -/
theorem publishOne_spec (env : MarketEnv) (now : Int) (provider praw : Nat)
    (st : MarketState) (deal : DealProposal) (st5 : MarketState) (newID : Nat) (slash : Int)
    (h : publishOne env now provider praw st deal = .ok (st5, newID, slash))
    (hfresh : FreshDealIDs st) :
    newID = st.NextID ∧ st5.NextID = st.NextID + 1 ∧ FreshDealIDs st5 ∧
    (∀ q p, st.Proposals q = some p → st.States q = none → now ≤ p.StartEpoch →
      st5.Proposals q = some p ∧ st5.States q = none ∧
      ∀ addr, q ∈ st.DealIDsByParty addr → q ∈ st5.DealIDsByParty addr) ∧
    (∃ cl, env.resolve deal.Client = some cl ∧
      st5.Proposals st.NextID = some { deal with Provider := provider, Client := cl } ∧
      st5.States st.NextID = none ∧ now ≤ deal.StartEpoch ∧
      st.NextID ∈ st5.DealIDsByParty cl ∧ st.NextID ∈ st5.DealIDsByParty provider) := by
  unfold publishOne at h
  cases hval : validateDeal env now deal with
  | error e => rw [hval] at h; exact absurd h (by simp)
  | ok u =>
    cases u
    rw [hval] at h
    dsimp only at h
    have hstart := validateDeal_ok_start env now deal hval
    by_cases hprov : deal.Provider ≠ provider ∧ deal.Provider ≠ praw
    · rw [if_pos hprov] at h; exact absurd h (by simp)
    · rw [if_neg hprov] at h
      cases hcl : env.resolve deal.Client with
      | none => rw [hcl] at h; exact absurd h (by simp)
      | some cl =>
        rw [hcl] at h
        dsimp only at h
        cases hu1 : updatePendingDealStatesForParty now cl st with
        | error e => rw [hu1] at h; exact absurd h (by simp)
        | ok pr1 =>
          obtain ⟨s1, st1⟩ := pr1
          rw [hu1] at h
          dsimp only at h
          cases hu2 : updatePendingDealStatesForParty now provider st1 with
          | error e => rw [hu2] at h; exact absurd h (by simp)
          | ok pr2 =>
            obtain ⟨s2, st2⟩ := pr2
            rw [hu2] at h
            dsimp only at h
            cases hl1 : lockBalanceOrAbort st2 cl
                (DealProposal.ClientBalanceRequirement
                  { deal with Provider := provider, Client := cl }) with
            | error e => rw [hl1] at h; exact absurd h (by simp)
            | ok st3 =>
              rw [hl1] at h
              dsimp only at h
              cases hl2 : lockBalanceOrAbort st3 provider
                  (DealProposal.ProviderBalanceRequirement
                    { deal with Provider := provider, Client := cl }) with
              | error e => rw [hl2] at h; exact absurd h (by simp)
              | ok st4 =>
                rw [hl2] at h
                dsimp only at h
                have hinj := Except.ok.inj h
                simp only [Prod.mk.injEq] at hinj
                obtain ⟨h5, hid, -⟩ := hinj
                obtain ⟨NU1, FU1, PU1⟩ :=
                  updatePendingDealStatesForParty_preserves now cl st s1 st1 hu1
                obtain ⟨NU2, FU2, PU2⟩ :=
                  updatePendingDealStatesForParty_preserves now provider st1 s2 st2 hu2
                obtain ⟨LP1, LS1, LD1, LN1⟩ := lockBalanceOrAbort_frame st2 cl _ st3 hl1
                obtain ⟨LP2, LS2, LD2, LN2⟩ := lockBalanceOrAbort_frame st3 provider _ st4 hl2
                have hN4 : st4.NextID = st.NextID := by rw [LN2, LN1, NU2, NU1]
                have hF4 : FreshDealIDs st4 := by
                  intro i hi
                  rw [LN2, LN1] at hi
                  have hf2 := FU2 (FU1 hfresh) i hi
                  rw [LP2, LP1, LS2, LS1]
                  exact hf2
                rw [← h5]
                refine ⟨by rw [← hid]; exact hN4, by show st4.NextID + 1 = _; rw [hN4], ?_,
                  ?_, ?_⟩
                · intro i hi
                  have hi' : st4.NextID + 1 ≤ i := hi
                  have hii : i ≠ st4.NextID := by omega
                  constructor
                  · show Function.update st4.Proposals st4.NextID
                      (some { deal with Provider := provider, Client := cl }) i = none
                    rw [Function.update_noteq hii]
                    exact (hF4 i (by omega)).1
                  · show st4.States i = none
                    exact (hF4 i (by omega)).2
                · intro q p hq hqs hqst
                  obtain ⟨hq1, hqs1, hm1⟩ := PU1 q p hq hqs hqst
                  obtain ⟨hq2, hqs2, hm2⟩ := PU2 q p hq1 hqs1 hqst
                  have hq4 : st4.Proposals q = some p := by rw [LP2, LP1]; exact hq2
                  have hqs4 : st4.States q = none := by rw [LS2, LS1]; exact hqs2
                  have hqlt : q < st.NextID := by
                    by_contra hge
                    have := (hfresh q (by omega)).1
                    rw [this] at hq
                    exact Option.noConfusion hq
                  have hqne : q ≠ st4.NextID := by omega
                  refine ⟨?_, hqs4, ?_⟩
                  · show Function.update st4.Proposals st4.NextID
                      (some { deal with Provider := provider, Client := cl }) q = some p
                    rw [Function.update_noteq hqne]
                    exact hq4
                  · intro addr hm
                    have hm4 : q ∈ st4.DealIDsByParty addr := by
                      rw [LD2, LD1]
                      exact hm2 addr (hm1 addr hm)
                    exact publish_insert_dbp_mem st4.DealIDsByParty cl provider
                      st4.NextID q addr hm4
                · refine ⟨cl, rfl, ?_, ?_, hstart, ?_, ?_⟩
                  · show Function.update st4.Proposals st4.NextID
                      (some { deal with Provider := provider, Client := cl }) st.NextID =
                        some { deal with Provider := provider, Client := cl }
                    rw [hN4, Function.update_same]
                  · show st4.States st.NextID = none
                    exact (hF4 st.NextID (by omega)).2
                  · rw [← hN4]
                    exact (publish_insert_dbp_self st4.DealIDsByParty cl provider
                      st4.NextID).1
                  · rw [← hN4]
                    exact (publish_insert_dbp_self st4.DealIDsByParty cl provider
                      st4.NextID).2

/-- The transaction body of PublishStorageDeals processes the batch in input
order, hands out consecutive ids `NextId, NextId+1, …`, inserts every
canonicalised proposal with both party-index entries, and keeps id
freshness. -/
theorem publishLoop_spec (env : MarketEnv) (now : Int) (provider praw : Nat) :
    ∀ (deals : List DealProposal) (st st' : MarketState) (ids : List Nat) (slash : Int),
      publishLoop env now provider praw deals st = .ok (st', ids, slash) →
      FreshDealIDs st →
      st'.NextID = st.NextID + deals.length ∧
      FreshDealIDs st' ∧
      (∀ q p, st.Proposals q = some p → st.States q = none → now ≤ p.StartEpoch →
        st'.Proposals q = some p ∧ st'.States q = none ∧
        ∀ addr, q ∈ st.DealIDsByParty addr → q ∈ st'.DealIDsByParty addr) ∧
      ids.length = deals.length ∧
      (∀ j (hj : j < ids.length), ids.get ⟨j, hj⟩ = st.NextID + j) ∧
      (∀ j (hj : j < deals.length), ∃ cl,
        env.resolve (deals.get ⟨j, hj⟩).Client = some cl ∧
        st'.Proposals (st.NextID + j) =
          some { deals.get ⟨j, hj⟩ with Provider := provider, Client := cl } ∧
        (st.NextID + j) ∈ st'.DealIDsByParty cl ∧
        (st.NextID + j) ∈ st'.DealIDsByParty provider) := by
  intro deals
  induction deals with
  | nil =>
    intro st st' ids slash h hfresh
    rw [publishLoop] at h
    simp only [Except.ok.injEq, Prod.mk.injEq] at h
    obtain ⟨h1, h2, -⟩ := h
    subst h1
    subst h2
    refine ⟨by simp, hfresh, fun q p hq hqs _ => ⟨hq, hqs, fun _ hm => hm⟩, rfl, ?_, ?_⟩
    · intro j hj
      exact absurd hj (by simp)
    · intro j hj
      exact absurd hj (by simp)
  | cons deal rest ih =>
    intro st st' ids slash h hfresh
    rw [publishLoop] at h
    cases hone : publishOne env now provider praw st deal with
    | error e => rw [hone] at h; exact absurd h (by simp)
    | ok tr =>
      obtain ⟨st1, id1, sl1⟩ := tr
      rw [hone] at h
      dsimp only at h
      cases hrest : publishLoop env now provider praw rest st1 with
      | error e => rw [hrest] at h; exact absurd h (by simp)
      | ok tr2 =>
        obtain ⟨st2, ids2, sl2⟩ := tr2
        rw [hrest] at h
        dsimp only at h
        simp only [Except.ok.injEq, Prod.mk.injEq] at h
        obtain ⟨hst, hids, -⟩ := h
        subst hst
        subst hids
        obtain ⟨hid1, hN1, hF1, hPres1, cl0, hcl0, hP0, hS0, hst0, hm0c, hm0p⟩ :=
          publishOne_spec env now provider praw st deal st1 id1 sl1 hone hfresh
        obtain ⟨hN2, hF2, hPres2, hlen2, hget2, hdeals2⟩ :=
          ih st1 st2 ids2 sl2 hrest hF1
        refine ⟨by rw [hN2, hN1]; simp only [List.length_cons]; omega, hF2, ?_, ?_, ?_, ?_⟩
        · intro q p hq hqs hqst
          obtain ⟨hq1, hqs1, hm1⟩ := hPres1 q p hq hqs hqst
          obtain ⟨hq2, hqs2, hm2⟩ := hPres2 q p hq1 hqs1 hqst
          exact ⟨hq2, hqs2, fun addr hm => hm2 addr (hm1 addr hm)⟩
        · simp [hlen2]
        · intro j hj
          cases j with
          | zero => exact hid1
          | succ j =>
            have hj2 : j < ids2.length := by simpa using hj
            have := hget2 j hj2
            show ids2.get ⟨j, hj2⟩ = st.NextID + (j + 1)
            rw [this, hN1]
            omega
        · intro j hj
          cases j with
          | zero =>
            refine ⟨cl0, hcl0, ?_, ?_, ?_⟩
            · obtain ⟨hq2, _, _⟩ := hPres2 st.NextID _ hP0 hS0 hst0
              exact hq2
            · obtain ⟨_, _, hm2⟩ := hPres2 st.NextID _ hP0 hS0 hst0
              exact hm2 cl0 hm0c
            · obtain ⟨_, _, hm2⟩ := hPres2 st.NextID _ hP0 hS0 hst0
              exact hm2 provider hm0p
          | succ j =>
            have hj2 : j < rest.length := by simpa using hj
            obtain ⟨cl, hc, hpj, hmc, hmp⟩ := hdeals2 j hj2
            have hidx : st1.NextID + j = st.NextID + (j + 1) := by
              rw [hN1]
              omega
            rw [hidx] at hpj hmc hmp
            exact ⟨cl, hc, hpj, hmc, hmp⟩

/-- C3: PublishStorageDeals is all-or-nothing over the batch: any error leaves
the market state exactly as it was (the transaction rolls back), and on
success the deals are processed in input order, receive the consecutive ids
`NextId, NextId+1, …`, and every deal in the batch is inserted into
`Proposals` (canonicalised to resolved addresses) and into both
`DealIDsByParty` entries, with `NextId` advanced by the batch size.  The
entry state satisfies the spec's id-allocation invariant (`FreshDealIDs`). -/
theorem C3_publishStorageDeals_atomic (env : MarketEnv) (caller : Nat) (now : Int)
    (deals : List DealProposal) (st : MarketState) (hfresh : FreshDealIDs st) :
    (∀ (e : ExitCode) (st' : MarketState),
      PublishStorageDeals env caller now deals st = (st', .error e) → st' = st) ∧
    (∀ (st' : MarketState) (ids : List Nat),
      PublishStorageDeals env caller now deals st = (st', .ok ids) →
      st'.NextID = st.NextID + deals.length ∧
      ids.length = deals.length ∧
      (∀ j (hj : j < ids.length), ids.get ⟨j, hj⟩ = st.NextID + j) ∧
      ∃ provider, ∀ j (hj : j < deals.length), ∃ cl,
        env.resolve (deals.get ⟨j, hj⟩).Client = some cl ∧
        st'.Proposals (st.NextID + j) =
          some { deals.get ⟨j, hj⟩ with Provider := provider, Client := cl } ∧
        (st.NextID + j) ∈ st'.DealIDsByParty cl ∧
        (st.NextID + j) ∈ st'.DealIDsByParty provider) := by
  constructor
  · intro e st' h
    unfold PublishStorageDeals at h
    by_cases hsig : ¬ env.isSignable caller
    · rw [if_pos hsig] at h
      exact (congrArg Prod.fst h).symm
    · rw [if_neg hsig] at h
      cases deals with
      | nil =>
        dsimp only at h
        exact (congrArg Prod.fst h).symm
      | cons d0 drest =>
        dsimp only at h
        cases hres : env.resolve d0.Provider with
        | none =>
          rw [hres] at h
          dsimp only at h
          exact (congrArg Prod.fst h).symm
        | some provider =>
          rw [hres] at h
          dsimp only at h
          by_cases hw : env.minerWorker provider ≠ caller
          · rw [if_pos hw] at h
            exact (congrArg Prod.fst h).symm
          · rw [if_neg hw] at h
            by_cases hub : ¬ ((d0 :: drest).all fun d =>
                !d.VerifiedDeal || env.useBytesOk d.Client d.PieceSize)
            · rw [if_pos hub] at h
              exact (congrArg Prod.fst h).symm
            · rw [if_neg hub] at h
              cases hloop : publishLoop env now provider d0.Provider (d0 :: drest) st with
              | error e2 =>
                rw [hloop] at h
                dsimp only at h
                exact (congrArg Prod.fst h).symm
              | ok tr =>
                obtain ⟨sA, idsA, slA⟩ := tr
                rw [hloop] at h
                dsimp only at h
                exact absurd (congrArg Prod.snd h) (by simp)
  · intro st' ids h
    unfold PublishStorageDeals at h
    by_cases hsig : ¬ env.isSignable caller
    · rw [if_pos hsig] at h
      exact absurd (congrArg Prod.snd h) (by simp)
    · rw [if_neg hsig] at h
      cases deals with
      | nil =>
        dsimp only at h
        exact absurd (congrArg Prod.snd h) (by simp)
      | cons d0 drest =>
        dsimp only at h
        cases hres : env.resolve d0.Provider with
        | none =>
          rw [hres] at h
          dsimp only at h
          exact absurd (congrArg Prod.snd h) (by simp)
        | some provider =>
          rw [hres] at h
          dsimp only at h
          by_cases hw : env.minerWorker provider ≠ caller
          · rw [if_pos hw] at h
            exact absurd (congrArg Prod.snd h) (by simp)
          · rw [if_neg hw] at h
            by_cases hub : ¬ ((d0 :: drest).all fun d =>
                !d.VerifiedDeal || env.useBytesOk d.Client d.PieceSize)
            · rw [if_pos hub] at h
              exact absurd (congrArg Prod.snd h) (by simp)
            · rw [if_neg hub] at h
              cases hloop : publishLoop env now provider d0.Provider (d0 :: drest) st with
              | error e2 =>
                rw [hloop] at h
                dsimp only at h
                exact absurd (congrArg Prod.snd h) (by simp)
              | ok tr =>
                obtain ⟨sA, idsA, slA⟩ := tr
                rw [hloop] at h
                dsimp only at h
                simp only [Prod.mk.injEq, Except.ok.injEq] at h
                obtain ⟨h1, h2⟩ := h
                subst h1
                subst h2
                obtain ⟨hN, _, _, hlen, hget, hdeals⟩ :=
                  publishLoop_spec env now provider d0.Provider (d0 :: drest) st
                    sA idsA slA hloop hfresh
                exact ⟨hN, hlen, hget, provider, hdeals⟩

/-- Witness for C3: publishing the single deal `exDeal` against the funded
market advances the id allocator by one. -/
theorem C3_publishStorageDeals_atomic_witness :
    (PublishStorageDeals exMarketEnv 2 0 [exDeal] exFundedMarket).1.NextID =
      exFundedMarket.NextID + [exDeal].length :=
  ((C3_publishStorageDeals_atomic exMarketEnv 2 0 [exDeal] exFundedMarket
      (fun _ _ => ⟨rfl, rfl⟩)).2
    (PublishStorageDeals exMarketEnv 2 0 [exDeal] exFundedMarket).1 [0]
    (Prod.ext rfl rfl)).1
